import Mathlib

/-!
# Typing-test engine (`src/App.jsx`): statistics and session state machine

Shallow embedding of the typing-test engine of the repository: `calculateStats`,
`startGame` / `endGame` / `handleInput` / `resetGame` and the countdown of `App.jsx`,
`fetchText` with the fallback `generateLocalText` of `api.js`, and the best-score
effect of `Results.jsx`.

* JS strings are lists of UTF-16 code units (`JStr`); `s[i]` is `s[i]?`.
* A JS number is modelled by the rational it denotes; every `/` and `*` on
  non-integers rounds its exact result to the nearest double (`fl`, ties to even).
  A division whose divisor is zero leaves the model (`jsDiv` returns `none`).
* `Math.round x` is `⌊x + 1/2⌋`, computed exactly (halves go up).
* A JS call that throws returns `none`.
* Every event is applied to the rendered state; an `await` splits `resetGame` into
  the part before it (`resetGame`) and its continuation (`textArrival`).
-/

namespace TypeSpeed

/-- A JS string: the list of its UTF-16 code units. -/
abbrev JStr := List Nat

/-- The JS string of a Lean string literal (one code unit per character; used for
ASCII examples only). -/
def jstr (s : String) : JStr := s.toList.map Char.toNat

/-- The constant `GameStatus` of `App.jsx`. -/
inductive GameStatus where
  | LOADING
  | IDLE
  | PLAYING
  | FINISHED
deriving DecidableEq

/-- The constant `GameMode` of `App.jsx`. -/
inductive GameMode where
  | TIME
  | WORDS
  | CUSTOM
deriving DecidableEq

/-- The `stats` object. `resetGame` stores an object without `timeElapsed` and
`totalChars`, hence the two optional fields. -/
structure Stats where
  wpm : Int
  rawWpm : Int
  accuracy : Int
  correctChars : Nat
  incorrectChars : Nat
  timeElapsed : Option ℚ
  totalChars : Option Nat
deriving DecidableEq

/-- The power `2 ^ e` of an integer exponent, as a rational. -/
def pow2 (e : Int) : ℚ :=
  if 0 ≤ e then ((2 ^ e.toNat : Nat) : ℚ) else 1 / ((2 ^ (-e).toNat : Nat) : ℚ)

/-- Rounding of a rational to the nearest integer, a tie going to the even one (the
rounding mode of IEEE-754 arithmetic). -/
def roundHalfEven (z : ℚ) : Int :=
  if z - ⌊z⌋ < 1 / 2 then ⌊z⌋
  else if 1 / 2 < z - ⌊z⌋ then ⌊z⌋ + 1
  else if ⌊z⌋ % 2 = 0 then ⌊z⌋ else ⌊z⌋ + 1

/-- Position of the highest set bit: `bitLog n n` is `⌊log₂ n⌋` for `n ≥ 1`; the first
argument bounds the number of halvings. -/
def bitLog : Nat → Nat → Nat
  | 0, _ => 0
  | fuel + 1, n => if 2 ≤ n then bitLog fuel (n / 2) + 1 else 0

/-- The binade of a positive rational `x`: the exponent `e` with
`2 ^ e ≤ x < 2 ^ (e + 1)`. -/
def binade (x : ℚ) : Int :=
  let e0 : Int := (bitLog x.num.natAbs x.num.natAbs : Int) - (bitLog x.den x.den : Int)
  if pow2 e0 ≤ x then e0 else e0 - 1

/-- The double nearest to a positive rational `x`: `x` is scaled into
`[2 ^ 52, 2 ^ 53)`, rounded to an integer significand (ties to even) and scaled
back. -/
def flPos (x : ℚ) : ℚ :=
  (roundHalfEven (x / pow2 (binade x - 52)) : ℚ) * pow2 (binade x - 52)

/-- Rounding of an exact result to a JS number: the nearest IEEE-754 binary64 value,
ties to even. The exponent range is not bounded, so the model agrees with the
hardware wherever no overflow or underflow occurs (magnitudes from `2 ^ (-1022)` up to
`2 ^ 1024`), which covers what `calculateStats` computes from a string and an elapsed
time of whole milliseconds. -/
def fl (x : ℚ) : ℚ :=
  if 0 < x then flPos x else if x < 0 then - flPos (-x) else 0

/-- JS `/` on doubles: the exact quotient rounded to the nearest double; `none` when
the divisor is zero (the JS result would be `Infinity` or `NaN`). -/
def jsDiv (a b : ℚ) : Option ℚ :=
  if b = 0 then none else some (fl (a / b))

/-- JS `*` on doubles: the exact product rounded to the nearest double. -/
def jsMul (a b : ℚ) : ℚ :=
  fl (a * b)

/-- JS `Math.round`: nearest integer, halves rounded up. -/
def mathRound (x : ℚ) : Int := ⌊x + 1 / 2⌋

/-- The `for (let i = 0; i < currentInput.length; i++)` loop of `calculateStats`:
state `(i, correct, incorrect)`; `fuel` bounds the number of iterations. -/
def charLoop (text currentInput : JStr) : Nat → Nat → Nat → Nat → Nat × Nat
  | 0, _, correct, incorrect => (correct, incorrect)
  | fuel + 1, i, correct, incorrect =>
    if i < currentInput.length then
      if currentInput[i]? = text[i]? then
        charLoop text currentInput fuel (i + 1) (correct + 1) incorrect
      else
        charLoop text currentInput fuel (i + 1) correct (incorrect + 1)
    else (correct, incorrect)

/-- Function `calculateStats(currentInput, timeElapsed)` of `App.jsx` (lines 62-90), with the
captured `text` as an explicit argument. -/
def calculateStats (text currentInput : JStr) (timeElapsed : ℚ) : Option Stats := do
  let (correct, incorrect) := charLoop text currentInput currentInput.length 0 0 0
  let minutes ← jsDiv timeElapsed 60
  let wpm ← if minutes > 0 then (do let w ← jsDiv correct 5; jsDiv w minutes) else pure 0
  let rawWpm ←
    if minutes > 0 then (do let w ← jsDiv currentInput.length 5; jsDiv w minutes) else pure 0
  let accuracy ←
    if currentInput.length > 0 then
      (do let a ← jsDiv correct currentInput.length; pure (jsMul a 100))
    else pure 100
  pure
    { wpm := mathRound wpm
      rawWpm := mathRound rawWpm
      accuracy := mathRound accuracy
      correctChars := correct
      incorrectChars := incorrect
      timeElapsed := some timeElapsed
      totalChars := some currentInput.length }

/-- The `difficulty` setting (`'simple' | 'medium' | 'advanced'`). -/
inductive Difficulty where
  | simple
  | medium
  | advanced
deriving DecidableEq

/-- The `options` argument of `resetGame`; every field may be absent. -/
structure ResetOptions where
  newMode : Option GameMode
  newTime : Option Int
  newWordCount : Option Int
  newDifficulty : Option Difficulty
  customText : Option JStr
  keepText : Option Bool
deriving DecidableEq

/-- The request `resetGame()` / `resetGame({})`: no field present. -/
def noOptions : ResetOptions :=
  ⟨none, none, none, none, none, none⟩

/-- The state of the `App` component together with the part of the browser it
drives.

* `status` … `stats` are the `useState` cells, `timerRef` is `timerRef.current`.
* `liveTimers` are the interval ids created by `window.setInterval` and not yet
  cleared; `nextTimerId` is the id the next `setInterval` returns (ids are positive).
* `pending` holds the `targetLength` of each `fetchText` call of `resetGame` that has
  not resolved yet.
* `statsCalls` is a ghost counter of `calculateStats` invocations. -/
structure App where
  status : GameStatus
  text : JStr
  input : JStr
  startTime : Option Int
  mode : GameMode
  timeLeft : Int
  initialTime : Int
  wordCount : Int
  difficulty : Difficulty
  stats : Stats
  timerRef : Option Nat
  liveTimers : List Nat
  nextTimerId : Nat
  pending : List Int
  statsCalls : Nat
deriving DecidableEq

/-- The component state on mount (the `useState` / `useRef` initial values). -/
def initialApp : App where
  status := .LOADING
  text := []
  input := []
  startTime := none
  mode := .TIME
  timeLeft := 30
  initialTime := 30
  wordCount := 25
  difficulty := .medium
  stats := ⟨0, 0, 100, 0, 0, some 0, some 0⟩
  timerRef := none
  liveTimers := []
  nextTimerId := 1
  pending := []
  statsCalls := 0

/-- JS truthiness of an optional number: absent and `0` are falsy. -/
def truthyNum : Option Int → Option Int
  | some n => if n = 0 then none else some n
  | none => none

/-- JS truthiness of an optional string: absent and `''` are falsy. -/
def truthyStr : Option JStr → Option JStr
  | some [] => none
  | some t => some t
  | none => none

/-- The browser call `clearInterval(id)`. -/
def clearInterval (s : App) (id : Nat) : App :=
  { s with liveTimers := s.liveTimers.filter (fun j => j ≠ id) }

/-- The statement `if (timerRef.current) clearInterval(timerRef.current);`. -/
def clearStoredTimer (s : App) : App :=
  match s.timerRef with
  | some id => if id ≠ 0 then clearInterval s id else s
  | none => s

/-- Function `endGame()` of `App.jsx` (lines 93-97). -/
def endGame (s : App) : App :=
  let s1 := clearStoredTimer s
  { s1 with status := .FINISHED, startTime := none }

/-- Function `startGame()` of `App.jsx` (lines 100-117); `now` is what `Date.now()` returns.
`mode` is the value captured at render, `rendered.mode`. -/
def startGame (rendered s : App) (now : Int) : App :=
  let s1 := { s with status := .PLAYING, startTime := some now }
  let s2 := clearStoredTimer s1
  if rendered.mode = .TIME then
    { s2 with
      timerRef := some s2.nextTimerId
      liveTimers := s2.nextTimerId :: s2.liveTimers
      nextTimerId := s2.nextTimerId + 1 }
  else s2

/-- The interval callback installed by `startGame` (lines 107-115), fired for the
interval `id`; a cleared interval does not fire. -/
def tick (s : App) (id : Nat) : App :=
  if id ∈ s.liveTimers then
    if s.timeLeft ≤ 1 then { endGame s with timeLeft := 0 }
    else { s with timeLeft := s.timeLeft - 1 }
  else s

/-- The elapsed seconds `handleInput` computes: `(now - (startTime || now)) / 1000`. -/
def elapsedSeconds (startTime : Option Int) (now : Int) : Option ℚ :=
  let start := (truthyNum startTime).getD now
  jsDiv ((now - start : Int) : ℚ) 1000

/-- Function `handleInput(value)` of `App.jsx` (lines 170-188). `status`, `startTime` and
`text` are read from the rendered state `s`; `nowStart` and `now` are the two
`Date.now()` readings (inside `startGame`, and in `handleInput` itself). -/
def handleInput (s : App) (value : JStr) (nowStart now : Int) : Option App :=
  if s.status = .FINISHED ∨ s.status = .LOADING then some s
  else do
    let s1 := if s.status = .IDLE then startGame s s nowStart else s
    let s2 := { s1 with input := value }
    let elapsed ← elapsedSeconds s.startTime now
    let currentStats ← calculateStats s.text value elapsed
    let s3 := { s2 with stats := currentStats, statsCalls := s2.statsCalls + 1 }
    if value.length = s.text.length then some (endGame s3) else some s3

/-- The object `resetGame` stores in `stats` (line 166). -/
def resetStats : Stats :=
  ⟨0, 0, 100, 0, 0, none, none⟩

/-- The tail of `resetGame` (lines 164-166). -/
def finishReset (s : App) : App :=
  { s with input := [], startTime := none, stats := resetStats }

/-- Lines 135-143 of `resetGame`: the settings of the request are stored, a field
only when it is truthy; `timeLeft` falls back to the rendered `initialTime`. -/
def applyOptions (rendered s : App) (o : ResetOptions) : App :=
  { s with
    mode := match o.newMode with
      | some m => m
      | none => s.mode
    timeLeft := match truthyNum o.newTime with
      | some t => t
      | none => rendered.initialTime
    initialTime := match truthyNum o.newTime with
      | some t => t
      | none => s.initialTime
    wordCount := match truthyNum o.newWordCount with
      | some w => w
      | none => s.wordCount
    difficulty := match o.newDifficulty with
      | some d => d
      | none => s.difficulty }

/-- Function `resetGame(options)` of `App.jsx` (lines 132-167) up to its first suspension:
either the whole call (custom text / kept text), or the part before
`await fetchText(targetLength)`, which records the request in `pending`.
`mode`, `wordCount` and `initialTime` are read from the rendered state `s`. -/
def resetGame (s : App) (o : ResetOptions) : App :=
  let s1 := clearStoredTimer s
  let s2 := applyOptions s s1 o
  let effectiveMode := o.newMode.getD s.mode
  let effectiveWordCount := (truthyNum o.newWordCount).getD s.wordCount
  match truthyStr o.customText with
  | some t => finishReset { s2 with text := t, mode := .CUSTOM, status := .IDLE }
  | none =>
    if o.keepText.getD false = false ∧ effectiveMode ≠ .CUSTOM then
      let targetLength := if effectiveMode = .WORDS then effectiveWordCount else 100
      { s2 with status := .LOADING, pending := s2.pending ++ [targetLength] }
    else finishReset { s2 with status := .IDLE }

/-- The continuation of `resetGame` after `await fetchText(targetLength)` (lines
157-158, 164-166): the `k`-th outstanding request resolves with `newText`. -/
def textArrival (s : App) (k : Nat) (newText : JStr) : App :=
  match s.pending[k]? with
  | some _ =>
    finishReset { s with text := newText, status := .IDLE, pending := s.pending.eraseIdx k }
  | none => s

/-- The events the component reacts to. -/
inductive Event where
  | reset (o : ResetOptions)
  | textArrival (k : Nat) (newText : JStr)
  | handleInput (value : JStr) (nowStart now : Int)
  | tick (id : Nat)

/-- One event applied to the rendered state. -/
def step (s : App) : Event → Option App
  | .reset o => some (resetGame s o)
  | .textArrival k newText => some (textArrival s k newText)
  | .handleInput value nowStart now => handleInput s value nowStart now
  | .tick id => some (tick s id)

/-- A sequence of events applied in order. -/
def run (s : App) : List Event → Option App
  | [] => some s
  | e :: es => (step s e).bind (fun s1 => run s1 es)

/-- The states reachable from the initial state. -/
inductive Reachable : App → Prop where
  | init : Reachable initialApp
  | step {s s1 : App} (e : Event) : Reachable s → step s e = some s1 → Reachable s1

/-- Spec-level count of correct characters: the indices `i < len(input)` with
`i < len(text)` and `input[i] = text[i]`. -/
def correctCount (text input : JStr) : Nat :=
  (List.range input.length).countP (fun i => decide (i < text.length ∧ input[i]? = text[i]?))

/-- Spec-level count of incorrect characters: the remaining indices `i < len(input)`,
those beyond the end of `text` or holding a different character. -/
def incorrectCount (text input : JStr) : Nat :=
  (List.range input.length).countP (fun i => decide (text.length ≤ i ∨ input[i]? ≠ text[i]?))

/-- The timer discipline: interval ids are positive, and a live interval, if any, is
the single one stored in `timerRef.current`. -/
def TimerInv (s : App) : Prop :=
  0 < s.nextTimerId ∧
    (s.liveTimers = [] ∨ ∃ id, id ≠ 0 ∧ s.timerRef = some id ∧ s.liveTimers = [id])

/-- Events of one attempt: interval ticks and keystrokes (no reset, no text arrival). -/
def isTickOrInput : Event → Bool
  | .tick _ => true
  | .handleInput _ _ _ => true
  | _ => false

/-- Events of a countdown during which no input reaches `len(text)`: ticks of the
interval `id` and keystrokes whose value has a length other than `len(text)`. -/
def quietEvent (text : JStr) (id : Nat) : Event → Bool
  | .tick j => decide (j = id)
  | .handleInput value _ _ => decide (value.length ≠ text.length)
  | _ => false

/-- Number of tick events in a trace. -/
def countTicks : List Event → Nat
  | [] => 0
  | .tick _ :: es => countTicks es + 1
  | _ :: es => countTicks es

/-- Whether an event keeps the typed value within the text: a `handleInput` value is
at most as long as the current text. -/
def inputBounded (s : App) : Event → Bool
  | .handleInput value _ _ => decide (value.length ≤ s.text.length)
  | _ => true

/-- Whether every event of a trace started in `s` keeps the typed value within the
text of the state it is applied to. -/
def boundedTrace (s : App) : List Event → Bool
  | [] => true
  | e :: es =>
    inputBounded s e &&
      match step s e with
      | some s1 => boundedTrace s1 es
      | none => false

/-- Example state: idle in Time mode on the text `"ab"`, countdown at 30 (the state
after the mount-time reset and the arrival of the text `"ab"`). -/
def idleExample : App :=
  { initialApp with status := .IDLE, text := jstr "ab", stats := resetStats }

/-- Example state: idle in Words mode on the text `"ab"`. -/
def idleWordsExample : App :=
  { initialApp with status := .IDLE, mode := .WORDS, text := jstr "ab", stats := resetStats }

/-- Example state: playing in Time mode on the text `"ab"` after the keystroke `"a"`
at time 5, with the interval 1 live. -/
def playingExample : App :=
  { initialApp with
    status := .PLAYING, text := jstr "ab", input := jstr "a", startTime := some 5
    stats := ⟨0, 0, 100, 1, 0, some 0, some 1⟩
    timerRef := some 1, liveTimers := [1], nextTimerId := 2, statsCalls := 1 }

/-- Example state: playing on the custom text `"ab"` with the typed value `"a"`
followed by one surrogate pair (three code units), reached at time 7 after a first
keystroke at time 5 (`timeElapsed` is the double nearest to `2 / 1000`). -/
def overlongExample : App :=
  { initialApp with
    status := .PLAYING, mode := .CUSTOM, text := jstr "ab", input := [97, 55357, 56832]
    startTime := some 5
    stats := ⟨6000, 18000, 33, 1, 2, some (1152921504606847 / 576460752303423488), some 3⟩
    statsCalls := 2 }

/-- Example state: `playingExample` after 29 ticks, the countdown at 1. -/
def lastSecondExample : App :=
  { playingExample with timeLeft := 1 }

/-- The constant `WORDS` of `api.js` (lines 9-15): the fallback vocabulary. -/
def WORDS : List JStr :=
  ["the", "be", "to", "of", "and", "a", "in", "that", "have", "it",
   "for", "not", "on", "with", "he", "as", "you", "do", "at", "this",
   "but", "his", "by", "from", "they", "we", "say", "her", "she", "or",
   "an", "will", "my", "one", "all", "would", "there", "what", "so", "up",
   "out", "if", "about", "who", "get", "which", "go", "me", "when", "make"].map jstr

/-- JS `toUpperCase` on one code unit, for the ASCII range (the vocabulary is ASCII). -/
def toUpperCaseUnit (c : Nat) : Nat :=
  if 97 ≤ c ∧ c ≤ 122 then c - 32 else c

/-- The expression `w.charAt(0).toUpperCase() + w.slice(1)` of `generateLocalText`. -/
def capitalize (w : JStr) : JStr :=
  (w.take 1).map toUpperCaseUnit ++ w.drop 1

/-- The `for` loop of `generateLocalText` (lines 42-44): `fuel` iterations left, `i`
the loop index, `words` the array built so far. `choices i` is the value of
`Math.floor(Math.random() * WORDS.length)` in iteration `i`. -/
def pickWords (choices : Nat → Fin WORDS.length) : Nat → Nat → List JStr → List JStr
  | 0, _, words => words
  | fuel + 1, i, words => pickWords choices fuel (i + 1) (words ++ [WORDS.get (choices i)])

/-- Function `generateLocalText(wordCount)` of `api.js` (lines 40-47). The result is
`none` when the call throws: with an empty `words` array, `words[0]` is `undefined`
and `words[0].charAt` raises a `TypeError`. -/
def generateLocalText (wordCount : Int) (choices : Nat → Fin WORDS.length) : Option JStr :=
  match pickWords choices wordCount.toNat 0 [] with
  | [] => none
  | w :: rest => some (List.intercalate [32] (capitalize w :: rest) ++ [46])

/-- JS `array.slice(0, n)`: the first `n` elements, or all but the last `-n` when `n`
is negative. -/
def sliceFromStart {α : Type} (xs : List α) (n : Int) : List α :=
  if 0 ≤ n then xs.take n.toNat else xs.take (xs.length + n).toNat

/-- Function `fetchText(targetWordCount)` of `App.jsx` (lines 120-129). `quotes` is the
outcome of `fetchQuotes(3)`: the joined quote text, or `none` when it throws. The
result is `none` when `fetchText` itself throws. -/
def fetchText (quotes : Option JStr) (choices : Nat → Fin WORDS.length)
    (targetWordCount : Int) : Option JStr :=
  match quotes with
  | some quoteText =>
    some (List.intercalate [32] (sliceFromStart (quoteText.splitOn 32) targetWordCount))
  | none => generateLocalText targetWordCount choices

/-- The `k`-th outstanding `await fetchText(targetLength)` of `resetGame` settles, with
the given outcome of `fetchQuotes` and random choices: when `fetchText` returns, the
continuation of `resetGame` runs; when it throws, `resetGame` is abandoned at the
`await` and no setter runs. -/
def resolveRequest (s : App) (k : Nat) (quotes : Option JStr)
    (choices : Nat → Fin WORDS.length) : App :=
  match s.pending[k]? with
  | some targetLength =>
    match fetchText quotes choices targetLength with
    | some newText => textArrival s k newText
    | none => { s with pending := s.pending.eraseIdx k }
  | none => s

/-- Whether `resetGame(options)` takes the fresh-text branch (lines 153-158): no
truthy `customText`, `keepText` falsy and an effective mode other than Custom. -/
def requestsText (s : App) (o : ResetOptions) : Bool :=
  decide (truthyStr o.customText = none ∧ o.keepText.getD false = false ∧
    o.newMode.getD s.mode ≠ .CUSTOM)

/-- The outcome of the `Results` effect (`Results.jsx`, lines 14-24): the high score
shown, the store afterwards, and whether `localStorage.setItem` was called. -/
structure ResultsOutcome where
  highScore : Int
  store : Option Int
  wrote : Bool
deriving DecidableEq

/-- The `useEffect` body of `Results` (`Results.jsx`, lines 14-24). The entry
`velocityType_bestWpm` of `localStorage` is modelled by the integer its decimal string
denotes (`wpm.toString()` writes it, `parseInt(storedBest, 10)` reads it back; such a
string is non-empty, hence truthy), or `none` when the entry is absent. -/
def resultsEffect (wpm : Int) (storedBest : Option Int) : ResultsOutcome :=
  let currentBest : Int := match storedBest with
    | some b => b
    | none => 0
  if wpm > currentBest then
    { highScore := wpm, store := some wpm, wrote := true }
  else
    { highScore := currentBest, store := storedBest, wrote := false }

/-- The random choices that always pick index 0 (the word `"the"`). -/
def firstWordChoices : Nat → Fin WORDS.length :=
  fun _ => ⟨0, by decide⟩

/-- The request `resetGame({ keepText: false })` issued by the Tab and Escape keys. -/
def newTextOptions : ResetOptions :=
  ⟨none, none, none, none, none, some false⟩

/-- Example state: two text requests outstanding (the mount-time reset followed by a
Tab press before the first text arrives). -/
def twoPendingExample : App :=
  { initialApp with pending := [100, 100] }

/-- Example state: Idle on the text `"cd"` with the interval 1 still live. Reached
from `twoPendingExample` when the first text `"ab"` arrives, the key `"a"` is typed
and then the second text `"cd"` arrives. -/
def idleTimerExample : App :=
  { initialApp with
    status := .IDLE, text := jstr "cd", stats := resetStats
    timerRef := some 1, liveTimers := [1], nextTimerId := 2, statsCalls := 1 }

/-- Example state: `twoPendingExample` after the second request resolved with `"new"`
and then the first with `"old"`. -/
def staleTextExample : App :=
  { initialApp with status := .IDLE, text := jstr "old", stats := resetStats }

/-- Example state: playing on the custom text `"cd"` (typed `"c"` at time 5) while the
text request of the earlier mount-time reset is still outstanding. -/
def customPlayingExample : App :=
  { initialApp with
    status := .PLAYING, mode := .CUSTOM, text := jstr "cd", input := jstr "c"
    startTime := some 5, stats := ⟨0, 0, 100, 1, 0, some 0, some 1⟩
    pending := [100], statsCalls := 1 }

/-- The time limits offered by the settings panel (`App.jsx`, line 384). -/
def timeChoice : Fin 4 → Int
  | 0 => 15
  | 1 => 30
  | 2 => 60
  | 3 => 120

/-- The word counts offered by the settings panel (`App.jsx`, line 389). -/
def wordCountChoice : Fin 4 → Int
  | 0 => 10
  | 1 => 25
  | 2 => 50
  | 3 => 100

/-- The calls of `resetGame` in `App.jsx`, the only code that can call it:
`resetGame()` on mount (line 232), `handleModeChange` (196), `handleDifficultyChange`
(199), `handleTimeChange` (200) and `handleWordCountChange` (201) with the values of
the settings panel, `submitCustomText` (205), `{ keepText: false }` from Tab, Escape
and the new-test button (220, 223, 468), and `{ keepText: true }` from the retry
button (467). The guards of `handleModeChange` (no reset for Custom) and
`submitCustomText` (non-blank draft) are not modelled, so a few more calls are
covered than the component makes. -/
inductive ResetCall where
  | mount
  | modeChange (m : GameMode)
  | difficultyChange (d : Difficulty)
  | timeChange (i : Fin 4)
  | wordCountChange (i : Fin 4)
  | submitCustomText (draft : JStr)
  | newTest
  | retry

/-- The `options` object each call of `resetGame` passes. -/
def callOptions : ResetCall → ResetOptions
  | .mount => noOptions
  | .modeChange m => ⟨some m, none, none, none, none, none⟩
  | .difficultyChange d => ⟨none, none, none, some d, none, none⟩
  | .timeChange i => ⟨none, some (timeChoice i), none, none, none, none⟩
  | .wordCountChange i => ⟨none, none, some (wordCountChoice i), none, none, none⟩
  | .submitCustomText draft => ⟨some .CUSTOM, none, none, none, some draft, none⟩
  | .newTest => newTextOptions
  | .retry => ⟨none, none, none, none, none, some true⟩

/-- The states the component can reach: resets come only from its own calls of
`resetGame`; a text request may resolve with any text; keystrokes and ticks are
arbitrary. -/
inductive ReachableByApp : App → Prop where
  | init : ReachableByApp initialApp
  | call {s : App} (c : ResetCall) :
      ReachableByApp s → ReachableByApp (resetGame s (callOptions c))
  | arrival {s : App} (k : Nat) (newText : JStr) :
      ReachableByApp s → ReachableByApp (textArrival s k newText)
  | input {s s1 : App} (value : JStr) (nowStart now : Int) :
      ReachableByApp s → handleInput s value nowStart now = some s1 → ReachableByApp s1
  | tick {s : App} (id : Nat) : ReachableByApp s → ReachableByApp (tick s id)

/-- The word count in force and every requested length are at least 1. -/
def CountsPositive (s : App) : Prop :=
  1 ≤ s.wordCount ∧ ∀ n ∈ s.pending, 1 ≤ n

/-! ## Rounding to the nearest double -/

theorem pow2_eq (e : Int) : pow2 e = (2 : ℚ) ^ e := by
  unfold pow2
  split_ifs with h
  · obtain ⟨n, rfl⟩ := Int.eq_ofNat_of_zero_le h
    simp
  · obtain ⟨n, hn⟩ : ∃ n : Nat, -e = (n : Int) := Int.eq_ofNat_of_zero_le (by omega)
    have he : e = -(n : Int) := by omega
    rw [hn, he]
    simp

theorem pow2_pos (e : Int) : 0 < pow2 e := by
  rw [pow2_eq]
  positivity

theorem pow2_add (a b : Int) : pow2 (a + b) = pow2 a * pow2 b := by
  simp only [pow2_eq]
  exact zpow_add₀ (by norm_num) a b

theorem pow2_le_iff (a b : Int) : pow2 a ≤ pow2 b ↔ a ≤ b := by
  simp only [pow2_eq]
  exact zpow_le_zpow_iff_right₀ (by norm_num)

theorem pow2_lt_iff (a b : Int) : pow2 a < pow2 b ↔ a < b := by
  simp only [pow2_eq]
  exact zpow_lt_zpow_iff_right₀ (by norm_num)

theorem pow2_natCast (n : Nat) : pow2 (n : Int) = ((2 ^ n : Nat) : ℚ) := by
  unfold pow2
  rw [if_pos (Int.natCast_nonneg n)]
  simp

theorem bitLog_eq_log2 : ∀ (fuel n : Nat), n ≤ fuel → bitLog fuel n = Nat.log2 n := by
  intro fuel
  induction fuel with
  | zero =>
    intro n hn
    have h0 : n = 0 := by omega
    subst h0
    rw [Nat.log2]
    simp [bitLog]
  | succ k ih =>
    intro n hn
    rw [bitLog, Nat.log2]
    by_cases h2 : 2 ≤ n
    · rw [if_pos h2, if_pos h2, ih (n / 2) (by omega)]
    · rw [if_neg h2, if_neg h2]

theorem bitLog_spec (n : Nat) (hn : n ≠ 0) :
    2 ^ bitLog n n ≤ n ∧ n < 2 ^ (bitLog n n + 1) := by
  rw [bitLog_eq_log2 n n (le_refl _)]
  exact ⟨Nat.log2_self_le hn, Nat.lt_log2_self⟩

theorem binade_spec (x : ℚ) (hx : 0 < x) :
    pow2 (binade x) ≤ x ∧ x < pow2 (binade x + 1) := by
  have hnum : 0 < x.num := Rat.num_pos.mpr hx
  have ha0 : x.num.natAbs ≠ 0 := by omega
  have hd0 : x.den ≠ 0 := x.den_nz
  obtain ⟨ha1, ha2⟩ := bitLog_spec x.num.natAbs ha0
  obtain ⟨hd1, hd2⟩ := bitLog_spec x.den hd0
  have hA : ((x.num.natAbs : Nat) : ℚ) = (x.num : ℚ) := by
    rw [Nat.cast_natAbs, abs_of_pos hnum]
  have hxd : x * (x.den : ℚ) = ((x.num.natAbs : Nat) : ℚ) := by
    rw [hA]; exact Rat.mul_den_eq_num x
  have hD : (0 : ℚ) < (x.den : ℚ) := by exact_mod_cast Nat.pos_of_ne_zero hd0
  generalize hla : bitLog x.num.natAbs x.num.natAbs = la at ha1 ha2
  generalize hld : bitLog x.den x.den = ld at hd1 hd2
  generalize hAq : ((x.num.natAbs : Nat) : ℚ) = A at hxd
  have hA1 : pow2 (la : Int) ≤ A := by
    rw [pow2_natCast, ← hAq]; exact_mod_cast ha1
  have hA2 : A < pow2 ((la : Int) + 1) := by
    have : pow2 ((la : Int) + 1) = pow2 ((la + 1 : Nat) : Int) := by push_cast; rfl
    rw [this, pow2_natCast, ← hAq]; exact_mod_cast ha2
  have hD1 : pow2 (ld : Int) ≤ (x.den : ℚ) := by
    rw [pow2_natCast]; exact_mod_cast hd1
  have hD2 : (x.den : ℚ) < pow2 ((ld : Int) + 1) := by
    have : pow2 ((ld : Int) + 1) = pow2 ((ld + 1 : Nat) : Int) := by push_cast; rfl
    rw [this, pow2_natCast]; exact_mod_cast hd2
  have hup : x < pow2 ((la : Int) - ld + 1) := by
    have h1 : pow2 ((la : Int) - ld + 1) * pow2 (ld : Int) = pow2 ((la : Int) + 1) := by
      rw [← pow2_add]; congr 1; ring
    have h2 : x * pow2 (ld : Int) < pow2 ((la : Int) - ld + 1) * pow2 (ld : Int) := by
      rw [h1]
      calc x * pow2 (ld : Int) ≤ x * (x.den : ℚ) :=
            mul_le_mul_of_nonneg_left hD1 (le_of_lt hx)
        _ = A := hxd
        _ < pow2 ((la : Int) + 1) := hA2
    exact lt_of_mul_lt_mul_right h2 (le_of_lt (pow2_pos _))
  have hlow : pow2 ((la : Int) - ld - 1) < x := by
    have h1 : pow2 ((la : Int) - ld - 1) * pow2 ((ld : Int) + 1) = pow2 (la : Int) := by
      rw [← pow2_add]; congr 1; ring
    have h2 : pow2 ((la : Int) - ld - 1) * pow2 ((ld : Int) + 1)
        < x * pow2 ((ld : Int) + 1) := by
      rw [h1]
      calc pow2 (la : Int) ≤ A := hA1
        _ = x * (x.den : ℚ) := hxd.symm
        _ < x * pow2 ((ld : Int) + 1) := mul_lt_mul_of_pos_left hD2 hx
    exact lt_of_mul_lt_mul_right h2 (le_of_lt (pow2_pos _))
  unfold binade
  simp only [hla, hld]
  split_ifs with h
  · exact ⟨h, hup⟩
  · refine ⟨le_of_lt hlow, ?_⟩
    have : (la : Int) - ld - 1 + 1 = (la : Int) - ld := by ring
    rw [this]
    exact not_le.mp h

theorem binade_mono (x y : ℚ) (hx : 0 < x) (hxy : x ≤ y) : binade x ≤ binade y := by
  have h1 := (binade_spec x hx).1
  have h2 := (binade_spec y (lt_of_lt_of_le hx hxy)).2
  have : pow2 (binade x) < pow2 (binade y + 1) := lt_of_le_of_lt (le_trans h1 hxy) h2
  have := (pow2_lt_iff _ _).mp this
  omega

theorem roundHalfEven_bounds (z : ℚ) :
    (⌊z⌋ : Int) ≤ roundHalfEven z ∧ roundHalfEven z ≤ ⌊z⌋ + 1 ∧
      ((roundHalfEven z : ℚ) - z ≤ 1 / 2 ∧ z - (roundHalfEven z : ℚ) ≤ 1 / 2) := by
  have h1 : (⌊z⌋ : ℚ) ≤ z := Int.floor_le z
  have h2 : z < (⌊z⌋ : ℚ) + 1 := Int.lt_floor_add_one z
  unfold roundHalfEven
  split_ifs with ha hb hc
  · refine ⟨le_refl _, by omega, ?_, ?_⟩ <;> linarith
  · refine ⟨by omega, le_refl _, ?_, ?_⟩ <;> push_cast <;> linarith
  · have heq : z - (⌊z⌋ : ℚ) = 1 / 2 := le_antisymm (not_lt.mp hb) (not_lt.mp ha)
    refine ⟨le_refl _, by omega, ?_, ?_⟩ <;> linarith
  · have heq : z - (⌊z⌋ : ℚ) = 1 / 2 := le_antisymm (not_lt.mp hb) (not_lt.mp ha)
    refine ⟨by omega, le_refl _, ?_, ?_⟩ <;> push_cast <;> linarith

theorem roundHalfEven_intCast (n : Int) : roundHalfEven (n : ℚ) = n := by
  unfold roundHalfEven
  rw [Int.floor_intCast]
  simp

theorem roundHalfEven_mono (z w : ℚ) (h : z ≤ w) : roundHalfEven z ≤ roundHalfEven w := by
  have hf : ⌊z⌋ ≤ ⌊w⌋ := Int.floor_mono h
  obtain ⟨_, hz2, _⟩ := roundHalfEven_bounds z
  obtain ⟨hw1, _, _⟩ := roundHalfEven_bounds w
  rcases lt_or_eq_of_le hf with hlt | heq
  · omega
  · -- same integer part: compare the fractional parts
    have hfr : z - (⌊z⌋ : ℚ) ≤ w - (⌊w⌋ : ℚ) := by rw [heq]; linarith
    unfold roundHalfEven
    rw [heq] at hfr ⊢
    split_ifs <;> first | omega | (exfalso; linarith)

theorem pow2_split (b : Int) : pow2 52 * pow2 (b - 52) = pow2 b := by
  rw [← pow2_add]; congr 1; ring

theorem pow2_split_succ (b : Int) : pow2 53 * pow2 (b - 52) = pow2 (b + 1) := by
  rw [← pow2_add]; congr 1; ring

theorem pow2_52 : pow2 52 = (((2 : Int) ^ 52 : Int) : ℚ) := by
  rw [pow2_eq]; norm_num

theorem pow2_53 : pow2 53 = (((2 : Int) ^ 53 : Int) : ℚ) := by
  rw [pow2_eq]; norm_num

theorem scaled_range (x : ℚ) (hx : 0 < x) :
    pow2 52 ≤ x / pow2 (binade x - 52) ∧ x / pow2 (binade x - 52) < pow2 53 := by
  obtain ⟨h1, h2⟩ := binade_spec x hx
  have hp := pow2_pos (binade x - 52)
  constructor
  · rw [le_div_iff₀ hp, pow2_split]; exact h1
  · rw [div_lt_iff₀ hp, pow2_split_succ]; exact h2

theorem significand_range (x : ℚ) (hx : 0 < x) :
    pow2 52 ≤ (roundHalfEven (x / pow2 (binade x - 52)) : ℚ) ∧
      (roundHalfEven (x / pow2 (binade x - 52)) : ℚ) ≤ pow2 53 := by
  obtain ⟨h1, h2⟩ := scaled_range x hx
  constructor
  · rw [pow2_52] at h1 ⊢
    have := roundHalfEven_mono _ _ h1
    rw [roundHalfEven_intCast] at this
    exact_mod_cast this
  · rw [pow2_53] at h2 ⊢
    have := roundHalfEven_mono _ _ (le_of_lt h2)
    rw [roundHalfEven_intCast] at this
    exact_mod_cast this

theorem flPos_bounds (x : ℚ) (hx : 0 < x) :
    pow2 (binade x) ≤ flPos x ∧ flPos x ≤ pow2 (binade x + 1) := by
  obtain ⟨h1, h2⟩ := significand_range x hx
  have hp := pow2_pos (binade x - 52)
  unfold flPos
  constructor
  · rw [← pow2_split]; exact mul_le_mul_of_nonneg_right h1 (le_of_lt hp)
  · rw [← pow2_split_succ]; exact mul_le_mul_of_nonneg_right h2 (le_of_lt hp)

theorem flPos_pos (x : ℚ) (hx : 0 < x) : 0 < flPos x :=
  lt_of_lt_of_le (pow2_pos _) (flPos_bounds x hx).1

theorem flPos_mono (x y : ℚ) (hx : 0 < x) (hxy : x ≤ y) : flPos x ≤ flPos y := by
  have hy : 0 < y := lt_of_lt_of_le hx hxy
  have hb := binade_mono x y hx hxy
  rcases lt_or_eq_of_le hb with hlt | heq
  · calc flPos x ≤ pow2 (binade x + 1) := (flPos_bounds x hx).2
      _ ≤ pow2 (binade y) := (pow2_le_iff _ _).mpr (by omega)
      _ ≤ flPos y := (flPos_bounds y hy).1
  · unfold flPos
    rw [heq]
    have hp := pow2_pos (binade y - 52)
    apply mul_le_mul_of_nonneg_right _ (le_of_lt hp)
    have hdiv : x / pow2 (binade y - 52) ≤ y / pow2 (binade y - 52) :=
      div_le_div_of_nonneg_right hxy (le_of_lt hp)
    exact_mod_cast roundHalfEven_mono _ _ hdiv

theorem flPos_error (x : ℚ) (hx : 0 < x) : |flPos x - x| ≤ x / 2 ^ 53 := by
  obtain ⟨_, _, h1, h2⟩ := roundHalfEven_bounds (x / pow2 (binade x - 52))
  have hp := pow2_pos (binade x - 52)
  have hb := (binade_spec x hx).1
  have hx' : x = x / pow2 (binade x - 52) * pow2 (binade x - 52) := by
    field_simp
  have hdiff : flPos x - x
      = ((roundHalfEven (x / pow2 (binade x - 52)) : ℚ) - x / pow2 (binade x - 52))
        * pow2 (binade x - 52) := by
    unfold flPos
    rw [sub_mul, ← hx']
  have hhalf : pow2 (binade x - 52) / 2 ≤ x / 2 ^ 53 := by
    have h52 : pow2 (binade x - 52) = pow2 (binade x) / 2 ^ 52 := by
      rw [← pow2_split (binade x), pow2_eq 52]
      norm_num
    rw [h52]
    have : pow2 (binade x) / 2 ^ 52 / 2 = pow2 (binade x) / 2 ^ 53 := by
      rw [div_div]; norm_num
    rw [this]
    exact div_le_div_of_nonneg_right hb (by positivity)
  rw [hdiff, abs_mul, abs_of_pos hp]
  have habs : |(roundHalfEven (x / pow2 (binade x - 52)) : ℚ) - x / pow2 (binade x - 52)|
      ≤ 1 / 2 := abs_le.mpr ⟨by linarith, h1⟩
  calc |(roundHalfEven (x / pow2 (binade x - 52)) : ℚ) - x / pow2 (binade x - 52)|
        * pow2 (binade x - 52)
      ≤ 1 / 2 * pow2 (binade x - 52) := mul_le_mul_of_nonneg_right habs (le_of_lt hp)
    _ = pow2 (binade x - 52) / 2 := by ring
    _ ≤ x / 2 ^ 53 := hhalf

theorem fl_zero : fl 0 = 0 := by
  unfold fl
  simp

theorem fl_of_pos (x : ℚ) (hx : 0 < x) : fl x = flPos x := by
  unfold fl
  rw [if_pos hx]

theorem fl_of_neg (x : ℚ) (hx : x < 0) : fl x = - flPos (-x) := by
  unfold fl
  rw [if_neg (not_lt.mpr (le_of_lt hx)), if_pos hx]

theorem fl_pos (x : ℚ) (hx : 0 < x) : 0 < fl x := by
  rw [fl_of_pos x hx]; exact flPos_pos x hx

theorem fl_neg (x : ℚ) (hx : x < 0) : fl x < 0 := by
  rw [fl_of_neg x hx]
  have := flPos_pos (-x) (by linarith)
  linarith

theorem fl_nonneg (x : ℚ) (hx : 0 ≤ x) : 0 ≤ fl x := by
  rcases lt_or_eq_of_le hx with h | h
  · exact le_of_lt (fl_pos x h)
  · rw [← h, fl_zero]

theorem fl_nonpos (x : ℚ) (hx : x ≤ 0) : fl x ≤ 0 := by
  rcases lt_or_eq_of_le hx with h | h
  · exact le_of_lt (fl_neg x h)
  · rw [h, fl_zero]

theorem fl_pos_iff (x : ℚ) : 0 < fl x ↔ 0 < x := by
  constructor
  · intro h
    by_contra hx
    exact absurd h (not_lt.mpr (fl_nonpos x (not_lt.mp hx)))
  · exact fl_pos x

theorem fl_mono (x y : ℚ) (h : x ≤ y) : fl x ≤ fl y := by
  rcases lt_trichotomy x 0 with hx | hx | hx
  · rcases lt_or_le y 0 with hy | hy
    · rw [fl_of_neg x hx, fl_of_neg y hy]
      have := flPos_mono (-y) (-x) (by linarith) (by linarith)
      linarith
    · exact le_trans (le_of_lt (fl_neg x hx)) (fl_nonneg y hy)
  · rw [hx, fl_zero]; exact fl_nonneg y (by linarith)
  · rw [fl_of_pos x hx, fl_of_pos y (lt_of_lt_of_le hx h)]
    exact flPos_mono x y hx h

theorem fl_error (x : ℚ) : |fl x - x| ≤ |x| / 2 ^ 53 := by
  rcases lt_trichotomy x 0 with hx | hx | hx
  · rw [fl_of_neg x hx, abs_of_neg hx]
    have := flPos_error (-x) (by linarith)
    have h2 : -flPos (-x) - x = -(flPos (-x) - -x) := by ring
    rw [h2, abs_neg]
    exact this
  · rw [hx, fl_zero]; simp
  · rw [fl_of_pos x hx, abs_of_pos hx]
    exact flPos_error x hx

unseal Rat.add Rat.mul Rat.inv Rat.sub in
theorem fl_one : fl 1 = 1 := by decide

unseal Rat.add Rat.mul Rat.inv Rat.sub in
theorem fl_hundred : fl 100 = 100 := by decide

/-! ## The statistics calculation -/

theorem jsDiv_of_ne (a b : ℚ) (h : b ≠ 0) : jsDiv a b = some (fl (a / b)) := by
  simp [jsDiv, h]

theorem charLoop_range (text input : JStr) :
    ∀ (fuel i c inc : Nat), i + fuel = input.length →
      charLoop text input fuel i c inc =
        (c + (List.range' i fuel).countP (fun j => decide (input[j]? = text[j]?)),
         inc + (List.range' i fuel).countP (fun j => !decide (input[j]? = text[j]?))) := by
  intro fuel
  induction fuel with
  | zero => intro i c inc _; simp [charLoop]
  | succ n ih =>
    intro i c inc h
    have hi : i < input.length := by omega
    have hn : i + 1 + n = input.length := by omega
    by_cases hm : input[i]? = text[i]?
    · rw [charLoop, if_pos hi, if_pos hm, ih (i + 1) (c + 1) inc hn, List.range'_succ,
        List.countP_cons_of_pos _ _ (by simpa using hm),
        List.countP_cons_of_neg _ _ (by simpa using hm)]
      congr 1
      omega
    · rw [charLoop, if_pos hi, if_neg hm, ih (i + 1) c (inc + 1) hn, List.range'_succ,
        List.countP_cons_of_neg _ _ (by simpa using hm),
        List.countP_cons_of_pos _ _ (by simpa using hm)]
      congr 1
      omega

theorem charLoop_counts (text input : JStr) :
    charLoop text input input.length 0 0 0 = (correctCount text input, incorrectCount text input) := by
  rw [charLoop_range text input input.length 0 0 0 (by omega)]
  simp only [Nat.zero_add, correctCount, incorrectCount, ← List.range_eq_range']
  congr 1
  · apply List.countP_congr
    intro j hj
    have hj1 : j < input.length := List.mem_range.mp hj
    simp only [decide_eq_true_eq]
    constructor
    · intro h
      refine ⟨?_, h⟩
      by_contra hlt
      have : text[j]? = none := List.getElem?_eq_none (by omega)
      rw [this, List.getElem?_eq_getElem hj1] at h
      exact absurd h (by simp)
    · exact fun h => h.2
  · apply List.countP_congr
    intro j hj
    have hj1 : j < input.length := List.mem_range.mp hj
    simp only [Bool.not_eq_true', decide_eq_false_iff_not, decide_eq_true_eq, ne_eq]
    constructor
    · intro h
      exact Or.inr h
    · rintro (h | h)
      · have : text[j]? = none := List.getElem?_eq_none h
        rw [this, List.getElem?_eq_getElem hj1]
        simp
      · exact h

theorem correct_add_incorrect (text input : JStr) :
    correctCount text input + incorrectCount text input = input.length := by
  unfold correctCount incorrectCount
  have h := List.length_eq_countP_add_countP
    (fun i => decide (i < text.length ∧ input[i]? = text[i]?)) (List.range input.length)
  rw [List.length_range] at h
  have hc : (List.range input.length).countP
        (fun i => decide (text.length ≤ i ∨ input[i]? ≠ text[i]?))
      = (List.range input.length).countP
        (fun a => decide ¬decide (a < text.length ∧ input[a]? = text[a]?) = true) := by
    apply List.countP_congr
    intro j _
    simp only [decide_eq_true_eq, not_and, ne_eq]
    constructor
    · rintro (h | h)
      · intro h1; omega
      · intro _; exact h
    · intro h
      by_cases h1 : j < text.length
      · exact Or.inr (h h1)
      · exact Or.inl (by omega)
  rw [hc]
  exact h.symm

/-- Closed form of `calculateStats`: it always returns, with these fields. -/
theorem calculateStats_eq (text input : JStr) (t : ℚ) :
    calculateStats text input t = some
      { wpm := mathRound (if fl (t / 60) > 0 then
          fl (fl ((correctCount text input : ℚ) / 5) / fl (t / 60)) else 0)
        rawWpm := mathRound (if fl (t / 60) > 0 then
          fl (fl ((input.length : ℚ) / 5) / fl (t / 60)) else 0)
        accuracy := mathRound (if input.length > 0 then
          fl (fl ((correctCount text input : ℚ) / input.length) * 100) else 100)
        correctChars := correctCount text input
        incorrectChars := incorrectCount text input
        timeElapsed := some t
        totalChars := some input.length } := by
  unfold calculateStats
  rw [charLoop_counts]
  have h60 : jsDiv t 60 = some (fl (t / 60)) := jsDiv_of_ne _ _ (by norm_num)
  have h5 : ∀ a : ℚ, jsDiv a 5 = some (fl (a / 5)) := fun a => jsDiv_of_ne _ _ (by norm_num)
  simp only [h60, h5, Option.bind_eq_bind, Option.some_bind, Option.pure_def, jsMul]
  by_cases hm : fl (t / 60) > 0
  · have hdiv : ∀ a : ℚ, jsDiv a (fl (t / 60)) = some (fl (a / fl (t / 60))) :=
      fun a => jsDiv_of_ne _ _ (ne_of_gt hm)
    by_cases hl : input.length > 0
    · have hlen : jsDiv (correctCount text input) input.length
          = some (fl ((correctCount text input : ℚ) / input.length)) :=
        jsDiv_of_ne _ _ (by exact_mod_cast (Nat.pos_iff_ne_zero.mp hl))
      simp [hm, hl, hdiv, hlen]
    · simp [hm, hl, hdiv]
  · by_cases hl : input.length > 0
    · have hlen : jsDiv (correctCount text input) input.length
          = some (fl ((correctCount text input : ℚ) / input.length)) :=
        jsDiv_of_ne _ _ (by exact_mod_cast (Nat.pos_iff_ne_zero.mp hl))
      simp [hm, hl, hlen]
    · simp [hm, hl]

theorem mathRound_eq_round (x : ℚ) : mathRound x = round x := by
  rw [round_eq]; rfl

theorem countP_ge_range (m : Nat) :
    ∀ n : Nat, (List.range n).countP (fun i => decide (m ≤ i)) = n - m := by
  intro n
  induction n with
  | zero => simp
  | succ k ih =>
    rw [List.range_succ, List.countP_append, ih]
    by_cases h : m ≤ k
    · rw [List.countP_cons_of_pos _ _ (by simpa using h)]
      simp only [List.countP_nil]
      omega
    · rw [List.countP_cons_of_neg _ _ (by simpa using h)]
      simp only [List.countP_nil]
      omega

theorem overflow_le_incorrectCount (text input : JStr) :
    input.length - text.length ≤ incorrectCount text input := by
  rw [← countP_ge_range text.length input.length]
  unfold incorrectCount
  apply List.countP_mono_left
  intro j _ h
  simp only [decide_eq_true_eq] at h ⊢
  exact Or.inl h

theorem prefix_incorrectCount_zero (text input : JStr) (h : input <+: text) :
    incorrectCount text input = 0 := by
  unfold incorrectCount
  rw [List.countP_eq_zero]
  intro j hj
  have hj1 : j < input.length := List.mem_range.mp hj
  obtain ⟨r, rfl⟩ := h
  simp only [decide_eq_true_eq, not_or, not_le, ne_eq, not_not, List.length_append]
  refine ⟨by omega, ?_⟩
  rw [List.getElem?_append_left hj1]

theorem mathRound_hundred : mathRound 100 = 100 := by
  unfold mathRound
  rw [Int.floor_eq_iff]
  norm_num

theorem mathRound_zero : mathRound 0 = 0 := by
  unfold mathRound
  rw [Int.floor_eq_iff]
  norm_num

theorem accuracy_of_no_incorrect (text input : JStr) (h : incorrectCount text input = 0) :
    mathRound (if input.length > 0 then
      fl (fl ((correctCount text input : ℚ) / input.length) * 100) else 100) = 100 := by
  have hsum := correct_add_incorrect text input
  rw [h, Nat.add_zero] at hsum
  by_cases hl : input.length > 0
  · rw [if_pos hl, hsum]
    have hne : (input.length : ℚ) ≠ 0 := by exact_mod_cast (Nat.pos_iff_ne_zero.mp hl)
    rw [div_self hne, fl_one, one_mul, fl_hundred]
    exact mathRound_hundred
  · rw [if_neg hl]
    exact mathRound_hundred

unseal Rat.add Rat.mul Rat.inv Rat.sub in
/-- C1: for every text, input and elapsed time `calculateStats` returns, with
`correctChars` the number of indices `i < len(input)` such that `i < len(text)` and
`input[i] = text[i]`, and `incorrectChars` the number of all remaining indices below
`len(input)`; the two add up to `len(input)` and the `len(input) - len(text)` indices
beyond the text are all among the incorrect ones. On `"hello world"` /
`"hallo world"` the counts are 10 and 1. -/
theorem calculateStats_char_counts :
    (∀ (text input : JStr) (t : ℚ), ∃ st, calculateStats text input t = some st ∧
      st.correctChars = (List.range input.length).countP
        (fun i => decide (i < text.length ∧ input[i]? = text[i]?)) ∧
      st.incorrectChars = (List.range input.length).countP
        (fun i => decide (¬ (i < text.length ∧ input[i]? = text[i]?))) ∧
      st.correctChars + st.incorrectChars = input.length ∧
      input.length - text.length ≤ st.incorrectChars) ∧
    (calculateStats (jstr "hello world") (jstr "hallo world") 60).map
      (fun st => (st.correctChars, st.incorrectChars)) = some (10, 1) := by
  refine ⟨?_, by decide⟩
  intro text input t
  refine ⟨_, calculateStats_eq text input t, rfl, ?_, correct_add_incorrect text input,
    overflow_le_incorrectCount text input⟩
  show incorrectCount text input = _
  unfold incorrectCount
  apply List.countP_congr
  intro j _
  simp only [decide_eq_true_eq, not_and, ne_eq]
  constructor
  · rintro (h | h)
    · intro h1; omega
    · intro _; exact h
  · intro h
    by_cases h1 : j < text.length
    · exact Or.inr (h h1)
    · exact Or.inl (by omega)

unseal Rat.add Rat.mul Rat.inv Rat.sub in
/-- C2 (as stated, refuted): on text `"abc"`, input `"abc"`, 24 s the exact quotient
`(3 / 5) / (24 / 60)` is `3 / 2`, which rounds to 2, but `calculateStats` returns
`wpm = 1` and `rawWpm = 1`: in doubles `0.6 / 0.4` is just below `1.5`. With 23 of 40
characters correct the exact `23 / 40 * 100` is `57.5`, which rounds to 58, but the
returned accuracy is 57. -/
theorem calculateStats_formulas_counterexample :
    calculateStats (jstr "abc") (jstr "abc") 24 = some ⟨1, 1, 100, 3, 0, some 24, some 3⟩ ∧
    ⌊(3 : ℚ) / 5 / (24 / 60) + 1 / 2⌋ = 2 ∧
    (calculateStats (List.replicate 40 97) (List.replicate 23 97 ++ List.replicate 17 98)
      0).map (fun st => (st.correctChars, st.accuracy)) = some (23, 57) ∧
    ⌊(23 : ℚ) / 40 * 100 + 1 / 2⌋ = 58 ∧
    ¬ ∃ st, calculateStats (jstr "abc") (jstr "abc") 24 = some st ∧
      st.wpm = (if 0 < (24 : ℚ) / 60 then ⌊(st.correctChars : ℚ) / 5 / (24 / 60) + 1 / 2⌋
        else 0) := by
  have h : calculateStats (jstr "abc") (jstr "abc") 24
      = some ⟨1, 1, 100, 3, 0, some 24, some 3⟩ := by decide
  refine ⟨h, by decide, by decide, by decide, ?_⟩
  rintro ⟨st, hst, hw⟩
  rw [h] at hst
  cases hst
  revert hw
  decide

unseal Rat.add Rat.mul Rat.inv Rat.sub in
/-- C2 (amended): with every division and multiplication rounded to the nearest
double (`fl`, off by at most a relative `2 ^ (-53)` from the exact result) and
`round` the nearest integer with halves up, `calculateStats` always returns (no
division has a zero divisor) and, with `minutes = fl(elapsedSeconds / 60)`, which is
positive exactly when `elapsedSeconds` is: `wpm = round(fl(fl(correctChars / 5) /
minutes))` and `rawWpm = round(fl(fl(len(input) / 5) / minutes))` when `minutes > 0`
and both are 0 otherwise, `accuracy = round(fl(fl(correctChars / len(input)) * 100))`
when `len(input) > 0` and 100 otherwise, `timeElapsed = elapsedSeconds`,
`totalChars = len(input)`. On `"hello world"` / `"hallo world"` / 60 s: `wpm = 2`,
`rawWpm = 2`, `accuracy = 91`. -/
theorem calculateStats_formulas :
    (∀ (text input : JStr) (t : ℚ), ∃ st, calculateStats text input t = some st ∧
      st.wpm = (if 0 < fl (t / 60) then
        round (fl (fl ((st.correctChars : ℚ) / 5) / fl (t / 60))) else 0) ∧
      st.rawWpm = (if 0 < fl (t / 60) then
        round (fl (fl ((input.length : ℚ) / 5) / fl (t / 60))) else 0) ∧
      st.accuracy = (if 0 < input.length then
        round (fl (fl ((st.correctChars : ℚ) / input.length) * 100)) else 100) ∧
      st.timeElapsed = some t ∧ st.totalChars = some input.length ∧
      (0 < fl (t / 60) ↔ 0 < t)) ∧
    (∀ x : ℚ, |fl x - x| ≤ |x| / 2 ^ 53) ∧
    (calculateStats (jstr "hello world") (jstr "hallo world") 60).map
      (fun st => (st.wpm, st.rawWpm, st.accuracy)) = some (2, 2, 91) := by
  refine ⟨?_, fl_error, by decide⟩
  intro text input t
  refine ⟨_, calculateStats_eq text input t, ?_, ?_, ?_, rfl, rfl, ?_⟩
  · show mathRound (if fl (t / 60) > 0 then _ else 0) = if 0 < fl (t / 60) then round _ else 0
    by_cases hm : 0 < fl (t / 60)
    · rw [if_pos hm, if_pos hm]; exact mathRound_eq_round _
    · rw [if_neg hm, if_neg hm]; exact mathRound_zero
  · show mathRound (if fl (t / 60) > 0 then _ else 0) = if 0 < fl (t / 60) then round _ else 0
    by_cases hm : 0 < fl (t / 60)
    · rw [if_pos hm, if_pos hm]; exact mathRound_eq_round _
    · rw [if_neg hm, if_neg hm]; exact mathRound_zero
  · show mathRound (if input.length > 0 then _ else 100)
      = if 0 < input.length then round _ else 100
    by_cases hl : 0 < input.length
    · rw [if_pos hl, if_pos hl]; exact mathRound_eq_round _
    · rw [if_neg hl, if_neg hl]; exact mathRound_hundred
  · rw [fl_pos_iff]
    constructor
    · intro h
      have := (div_pos_iff_of_pos_right (by norm_num : (0 : ℚ) < 60)).mp h
      exact this
    · intro h
      exact div_pos h (by norm_num)

unseal Rat.add Rat.mul Rat.inv Rat.sub in
/-- C3 (as stated, refuted): at elapsed time 0, text `"a"` and input `"b"`,
`calculateStats` returns accuracy 0, not 100. -/
theorem calculateStats_nonpositive_time_counterexample :
    (0 : ℚ) ≤ 0 ∧
    calculateStats (jstr "a") (jstr "b") 0 = some ⟨0, 0, 0, 0, 1, some 0, some 1⟩ ∧
    ¬ ∃ st, calculateStats (jstr "a") (jstr "b") 0 = some st ∧
      st.wpm = 0 ∧ st.rawWpm = 0 ∧ st.accuracy = 100 := by
  have h : calculateStats (jstr "a") (jstr "b") 0 = some ⟨0, 0, 0, 0, 1, some 0, some 1⟩ := by
    decide
  refine ⟨le_refl _, h, ?_⟩
  rintro ⟨st, hst, _, _, hacc⟩
  rw [h] at hst
  cases hst
  exact absurd hacc (by decide)

/-- C3 (amended): for every text, input and `elapsedSeconds ≤ 0`, `calculateStats`
returns `wpm = 0` and `rawWpm = 0`; `accuracy` is 100 when no typed character is
incorrect and otherwise `round(fl(fl(correctChars / len(input)) * 100))`, the
division and the multiplication each rounded to the nearest double (`fl`). -/
theorem calculateStats_nonpositive_time (text input : JStr) (t : ℚ) (ht : t ≤ 0) :
    ∃ st, calculateStats text input t = some st ∧ st.wpm = 0 ∧ st.rawWpm = 0 ∧
      st.accuracy = (if st.incorrectChars = 0 then 100
        else round (fl (fl ((st.correctChars : ℚ) / input.length) * 100))) := by
  have hm : ¬ fl (t / 60) > 0 := by
    have : t / 60 ≤ 0 := div_nonpos_of_nonpos_of_nonneg ht (by norm_num)
    exact not_lt.mpr (fl_nonpos _ this)
  refine ⟨_, calculateStats_eq text input t, ?_, ?_, ?_⟩
  · show mathRound _ = _
    rw [if_neg hm]; exact mathRound_zero
  · show mathRound _ = _
    rw [if_neg hm]; exact mathRound_zero
  · show mathRound _ = (if incorrectCount text input = 0 then _ else _)
    by_cases hi : incorrectCount text input = 0
    · rw [if_pos hi]; exact accuracy_of_no_incorrect text input hi
    · rw [if_neg hi]
      have hl : input.length > 0 := by
        have := correct_add_incorrect text input
        omega
      rw [if_pos hl]
      exact mathRound_eq_round _

theorem calculateStats_nonpositive_time_witness :
    (-1 : ℚ) ≤ 0 ∧ ∃ st, calculateStats (jstr "ab") (jstr "ax") (-1) = some st ∧
      st.wpm = 0 ∧ st.rawWpm = 0 ∧
      st.accuracy = (if st.incorrectChars = 0 then 100
        else round (fl (fl ((st.correctChars : ℚ) / (jstr "ax").length) * 100))) :=
  ⟨by norm_num, calculateStats_nonpositive_time (jstr "ab") (jstr "ax") (-1) (by norm_num)⟩

/-- C4: for every text, every input that is a prefix of the text (the empty input
and the whole text included) and every elapsed time, `calculateStats` returns
`incorrectChars = 0` and `accuracy = 100`. -/
theorem calculateStats_prefix_input (text input : JStr) (t : ℚ) (h : input <+: text) :
    ∃ st, calculateStats text input t = some st ∧ st.incorrectChars = 0 ∧ st.accuracy = 100 :=
  ⟨_, calculateStats_eq text input t, prefix_incorrectCount_zero text input h,
    accuracy_of_no_incorrect text input (prefix_incorrectCount_zero text input h)⟩

theorem calculateStats_prefix_input_witness :
    jstr "hel" <+: jstr "hello" ∧
    ∃ st, calculateStats (jstr "hello") (jstr "hel") 3 = some st ∧
      st.incorrectChars = 0 ∧ st.accuracy = 100 :=
  ⟨by decide, calculateStats_prefix_input (jstr "hello") (jstr "hel") 3 (by decide)⟩

/-! ## The session state machine -/

theorem reachable_of_run : ∀ (es : List Event) (s s1 : App),
    Reachable s → run s es = some s1 → Reachable s1 := by
  intro es
  induction es with
  | nil =>
    intro s s1 hs h
    simp only [run, Option.some.injEq] at h
    exact h ▸ hs
  | cons e es ih =>
    intro s s1 hs h
    simp only [run] at h
    cases hstep : step s e with
    | none => rw [hstep] at h; simp at h
    | some s2 =>
      rw [hstep] at h
      exact ih s2 s1 (Reachable.step e hs hstep) h

theorem reachable_idleExample : Reachable idleExample :=
  reachable_of_run [.reset noOptions, .textArrival 0 (jstr "ab")] _ _ Reachable.init
    (by decide)

theorem reachable_idleWordsExample : Reachable idleWordsExample :=
  reachable_of_run
    [.reset ⟨some .WORDS, none, none, none, none, none⟩, .textArrival 0 (jstr "ab")] _ _
    Reachable.init (by decide)

unseal Rat.add Rat.mul Rat.inv Rat.sub in
theorem reachable_playingExample : Reachable playingExample :=
  reachable_of_run [.handleInput (jstr "a") 5 5] _ _ reachable_idleExample
    (by decide)

theorem clearStoredTimer_of_inv (s : App) (h : TimerInv s) :
    clearStoredTimer s = { s with liveTimers := [] } := by
  obtain ⟨_, h | ⟨id, hid, href, hlive⟩⟩ := h
  · cases s
    simp only at h
    subst h
    unfold clearStoredTimer clearInterval
    split
    · split_ifs <;> simp
    · rfl
  · unfold clearStoredTimer clearInterval
    simp [href, hid, hlive]

theorem handleInput_noop (s : App) (value : JStr) (nowStart now : Int)
    (h : s.status = .FINISHED ∨ s.status = .LOADING) :
    handleInput s value nowStart now = some s := by
  unfold handleInput
  rw [if_pos h]

theorem elapsedSeconds_eq (startTime : Option Int) (now : Int) :
    elapsedSeconds startTime now
      = some (fl (((now - (truthyNum startTime).getD now : Int) : ℚ) / 1000)) :=
  jsDiv_of_ne _ _ (by norm_num)

/-- Closed form of an accepted `handleInput`: it always returns. -/
theorem handleInput_accepted (s : App) (value : JStr) (nowStart now : Int)
    (h : s.status = .IDLE ∨ s.status = .PLAYING) :
    ∃ el st, elapsedSeconds s.startTime now = some el ∧
      calculateStats s.text value el = some st ∧
      handleInput s value nowStart now = some
        (if value.length = s.text.length then
          endGame { (if s.status = .IDLE then startGame s s nowStart else s) with
            input := value, stats := st
            statsCalls := (if s.status = .IDLE then startGame s s nowStart else s).statsCalls + 1 }
        else
          { (if s.status = .IDLE then startGame s s nowStart else s) with
            input := value, stats := st
            statsCalls :=
              (if s.status = .IDLE then startGame s s nowStart else s).statsCalls + 1 }) := by
  refine ⟨_, _, elapsedSeconds_eq _ _, calculateStats_eq _ _ _, ?_⟩
  have hrej : ¬ (s.status = .FINISHED ∨ s.status = .LOADING) := by
    rcases h with h | h <;> simp [h]
  unfold handleInput
  rw [if_neg hrej]
  simp only [elapsedSeconds_eq, calculateStats_eq, Option.bind_eq_bind, Option.some_bind]
  split_ifs <;> rfl

theorem timerInv_clear (s : App) (h : TimerInv s) : TimerInv (clearStoredTimer s) := by
  rw [clearStoredTimer_of_inv s h]
  exact ⟨h.1, Or.inl rfl⟩

theorem endGame_of_inv (s : App) (h : TimerInv s) :
    endGame s = { s with liveTimers := [], status := .FINISHED, startTime := none } := by
  unfold endGame
  rw [clearStoredTimer_of_inv s h]

theorem startGame_of_inv (r s : App) (now : Int) (h : TimerInv s) :
    startGame r s now =
      if r.mode = .TIME then
        { s with
          status := .PLAYING, startTime := some now, timerRef := some s.nextTimerId
          liveTimers := [s.nextTimerId], nextTimerId := s.nextTimerId + 1 }
      else { s with status := .PLAYING, startTime := some now, liveTimers := [] } := by
  have h1 : TimerInv { s with status := .PLAYING, startTime := some now } := h
  unfold startGame
  simp only [clearStoredTimer_of_inv _ h1]

theorem timerInv_startGame (r s : App) (now : Int) (h : TimerInv s) :
    TimerInv (startGame r s now) := by
  rw [startGame_of_inv r s now h]
  have hpos := h.1
  split_ifs
  · exact ⟨Nat.succ_pos _, Or.inr ⟨s.nextTimerId, by omega, rfl, rfl⟩⟩
  · exact ⟨hpos, Or.inl rfl⟩

theorem timerInv_endGame (s : App) (h : TimerInv s) : TimerInv (endGame s) := by
  rw [endGame_of_inv s h]
  exact ⟨h.1, Or.inl rfl⟩

theorem resetGame_timers (s : App) (o : ResetOptions) (h : TimerInv s) :
    (resetGame s o).liveTimers = [] ∧ (resetGame s o).nextTimerId = s.nextTimerId := by
  unfold resetGame
  rw [clearStoredTimer_of_inv s h]
  cases truthyStr o.customText with
  | some t => exact ⟨rfl, rfl⟩
  | none =>
    simp only
    split_ifs <;> exact ⟨rfl, rfl⟩

theorem timerInv_resetGame (s : App) (o : ResetOptions) (h : TimerInv s) :
    TimerInv (resetGame s o) := by
  obtain ⟨h1, h2⟩ := resetGame_timers s o h
  exact ⟨h2 ▸ h.1, Or.inl h1⟩

theorem timerInv_textArrival (s : App) (k : Nat) (newText : JStr) (h : TimerInv s) :
    TimerInv (textArrival s k newText) := by
  unfold textArrival
  split
  · exact h
  · exact h

theorem timerInv_tick (s : App) (id : Nat) (h : TimerInv s) : TimerInv (tick s id) := by
  unfold tick
  split_ifs
  · have := timerInv_endGame s h
    exact this
  · exact h
  · exact h

theorem timerInv_congr (s s1 : App) (h1 : s1.nextTimerId = s.nextTimerId)
    (h2 : s1.liveTimers = s.liveTimers) (h3 : s1.timerRef = s.timerRef) (h : TimerInv s) :
    TimerInv s1 := by
  unfold TimerInv at h ⊢
  rw [h1, h2, h3]
  exact h

theorem timerInv_handleInput (s s1 : App) (value : JStr) (nowStart now : Int)
    (h : TimerInv s) (hs : handleInput s value nowStart now = some s1) : TimerInv s1 := by
  by_cases hacc : s.status = .IDLE ∨ s.status = .PLAYING
  · obtain ⟨el, st, _, _, heq⟩ := handleInput_accepted s value nowStart now hacc
    rw [heq] at hs
    have hmid : TimerInv (if s.status = .IDLE then startGame s s nowStart else s) := by
      split_ifs
      · exact timerInv_startGame s s nowStart h
      · exact h
    generalize (if s.status = .IDLE then startGame s s nowStart else s) = m at hs hmid
    cases hs
    split_ifs
    · exact timerInv_endGame _ (timerInv_congr m _ rfl rfl rfl hmid)
    · exact timerInv_congr m _ rfl rfl rfl hmid
  · have hrej : s.status = .FINISHED ∨ s.status = .LOADING := by
      cases hst : s.status <;> simp [hst] at hacc ⊢
    rw [handleInput_noop s value nowStart now hrej] at hs
    cases hs
    exact h

theorem timerInv_step (s s1 : App) (e : Event) (h : TimerInv s) (hs : step s e = some s1) :
    TimerInv s1 := by
  cases e with
  | reset o => cases hs; exact timerInv_resetGame s o h
  | textArrival k t => cases hs; exact timerInv_textArrival s k t h
  | handleInput v n1 n2 => exact timerInv_handleInput s s1 v n1 n2 h hs
  | tick id => cases hs; exact timerInv_tick s id h

theorem timerInv_of_reachable (s : App) (h : Reachable s) : TimerInv s := by
  induction h with
  | init => exact ⟨by decide, Or.inl rfl⟩
  | step e _ hs ih => exact timerInv_step _ _ e ih hs

/-- Every event has a defined effect in every state. -/
theorem step_total (s : App) (e : Event) : ∃ s1, step s e = some s1 := by
  cases e with
  | reset o => exact ⟨_, rfl⟩
  | textArrival k t => exact ⟨_, rfl⟩
  | tick id => exact ⟨_, rfl⟩
  | handleInput v n1 n2 =>
    by_cases hacc : s.status = .IDLE ∨ s.status = .PLAYING
    · obtain ⟨_, _, _, _, heq⟩ := handleInput_accepted s v n1 n2 hacc
      exact ⟨_, heq⟩
    · have hrej : s.status = .FINISHED ∨ s.status = .LOADING := by
        cases hst : s.status <;> simp [hst] at hacc ⊢
      exact ⟨s, handleInput_noop s v n1 n2 hrej⟩

/-- C5: when the status is Finished or Loading, `handleInput(value)` returns the
session unchanged, whatever the value: input, stats, status, startTime, text, the
stored and the live timers are the same, and so is the count of `calculateStats`
calls. -/
theorem handleInput_rejected (s : App) (value : JStr) (nowStart now : Int)
    (h : s.status = .FINISHED ∨ s.status = .LOADING) :
    ∃ s1, handleInput s value nowStart now = some s1 ∧ s1 = s ∧
      s1.input = s.input ∧ s1.stats = s.stats ∧ s1.status = s.status ∧
      s1.startTime = s.startTime ∧ s1.text = s.text ∧ s1.timerRef = s.timerRef ∧
      s1.liveTimers = s.liveTimers ∧ s1.statsCalls = s.statsCalls := by
  refine ⟨s, ?_, rfl, rfl, rfl, rfl, rfl, rfl, rfl, rfl, rfl⟩
  unfold handleInput
  rw [if_pos h]

theorem handleInput_rejected_witness :
    (initialApp.status = .FINISHED ∨ initialApp.status = .LOADING) ∧
    ∃ s1, handleInput initialApp (jstr "a") 1 1 = some s1 ∧ s1 = initialApp ∧
      s1.input = initialApp.input ∧ s1.stats = initialApp.stats ∧
      s1.status = initialApp.status ∧ s1.startTime = initialApp.startTime ∧
      s1.text = initialApp.text ∧ s1.timerRef = initialApp.timerRef ∧
      s1.liveTimers = initialApp.liveTimers ∧ s1.statsCalls = initialApp.statsCalls :=
  ⟨by decide, handleInput_rejected initialApp (jstr "a") 1 1 (by decide)⟩

/-- C6: in a reachable session with status Idle, `handleInput(value)` with
`len(value) ≠ len(text)` leaves status Playing, `startTime` the current time and
`input = value`; a countdown interval is live afterwards exactly when the mode is
Time (then it is the single, freshly created one). -/
theorem handleInput_first_keystroke (s : App) (value : JStr) (nowStart now : Int)
    (hr : Reachable s) (hidle : s.status = .IDLE) (hlen : value.length ≠ s.text.length) :
    ∃ s1, handleInput s value nowStart now = some s1 ∧ s1.status = .PLAYING ∧
      s1.startTime = some nowStart ∧ s1.input = value ∧
      (s1.liveTimers ≠ [] ↔ s.mode = .TIME) ∧
      s1.liveTimers = (if s.mode = .TIME then [s.nextTimerId] else []) := by
  obtain ⟨el, st, _, _, heq⟩ := handleInput_accepted s value nowStart now (Or.inl hidle)
  rw [if_neg hlen, if_pos hidle, startGame_of_inv s s nowStart (timerInv_of_reachable s hr)] at heq
  refine ⟨_, heq, ?_⟩
  by_cases hm : s.mode = .TIME
  · simp [hm]
  · simp [hm]

theorem handleInput_first_keystroke_witness :
    Reachable idleExample ∧ idleExample.status = .IDLE ∧
    (jstr "a").length ≠ idleExample.text.length ∧
    ∃ s1, handleInput idleExample (jstr "a") 5 5 = some s1 ∧ s1.status = .PLAYING ∧
      s1.startTime = some 5 ∧ s1.input = jstr "a" ∧
      (s1.liveTimers ≠ [] ↔ idleExample.mode = .TIME) ∧
      s1.liveTimers = (if idleExample.mode = .TIME then [idleExample.nextTimerId] else []) :=
  ⟨reachable_idleExample, by decide, by decide,
    handleInput_first_keystroke idleExample (jstr "a") 5 5 reachable_idleExample
      (by decide) (by decide)⟩

/-- C7: in a reachable session with status Idle or Playing, in any mode,
`handleInput(value)` with `len(value) = len(text)` leaves status Finished,
`startTime` unset, no interval live, `input = value` and `stats` the result of
`calculateStats` on that value and the elapsed time. -/
theorem handleInput_completion (s : App) (value : JStr) (nowStart now : Int)
    (hr : Reachable s) (hst : s.status = .IDLE ∨ s.status = .PLAYING)
    (hlen : value.length = s.text.length) :
    ∃ s1 el st, handleInput s value nowStart now = some s1 ∧ s1.status = .FINISHED ∧
      s1.startTime = none ∧ s1.liveTimers = [] ∧ s1.input = value ∧
      elapsedSeconds s.startTime now = some el ∧
      calculateStats s.text value el = some st ∧ s1.stats = st := by
  obtain ⟨el, st, hel, hcs, heq⟩ := handleInput_accepted s value nowStart now hst
  have hinv := timerInv_of_reachable s hr
  have hmid : TimerInv (if s.status = .IDLE then startGame s s nowStart else s) := by
    split_ifs
    · exact timerInv_startGame s s nowStart hinv
    · exact hinv
  rw [if_pos hlen] at heq
  generalize (if s.status = .IDLE then startGame s s nowStart else s) = m at heq hmid
  have hmid2 : TimerInv { m with input := value, stats := st, statsCalls := m.statsCalls + 1 } :=
    timerInv_congr m _ rfl rfl rfl hmid
  rw [endGame_of_inv _ hmid2] at heq
  exact ⟨_, el, st, heq, rfl, rfl, rfl, rfl, hel, hcs, rfl⟩

theorem handleInput_completion_witness :
    Reachable idleWordsExample ∧
    (idleWordsExample.status = .IDLE ∨ idleWordsExample.status = .PLAYING) ∧
    (jstr "ab").length = idleWordsExample.text.length ∧
    ∃ s1 el st, handleInput idleWordsExample (jstr "ab") 5 5 = some s1 ∧
      s1.status = .FINISHED ∧ s1.startTime = none ∧ s1.liveTimers = [] ∧
      s1.input = jstr "ab" ∧ elapsedSeconds idleWordsExample.startTime 5 = some el ∧
      calculateStats idleWordsExample.text (jstr "ab") el = some st ∧ s1.stats = st :=
  ⟨reachable_idleWordsExample, by decide, by decide,
    handleInput_completion idleWordsExample (jstr "ab") 5 5 reachable_idleWordsExample
      (by decide) (by decide)⟩

theorem clearStoredTimer_fields (s : App) :
    (clearStoredTimer s).input = s.input ∧ (clearStoredTimer s).text = s.text := by
  unfold clearStoredTimer clearInterval
  split
  · split_ifs <;> exact ⟨rfl, rfl⟩
  · exact ⟨rfl, rfl⟩

theorem endGame_fields (s : App) :
    (endGame s).input = s.input ∧ (endGame s).text = s.text :=
  clearStoredTimer_fields s

theorem startGame_fields (r s : App) (now : Int) :
    (startGame r s now).input = s.input ∧ (startGame r s now).text = s.text := by
  unfold startGame
  have h := clearStoredTimer_fields { s with status := .PLAYING, startTime := some now }
  split_ifs
  · exact h
  · exact h

theorem resetGame_input (s : App) (o : ResetOptions) :
    (resetGame s o).input = [] ∨
      ((resetGame s o).input = s.input ∧ (resetGame s o).text = s.text) := by
  obtain ⟨h1, h2⟩ := clearStoredTimer_fields s
  unfold resetGame
  cases truthyStr o.customText with
  | some t => exact Or.inl rfl
  | none =>
    simp only
    by_cases hc : o.keepText.getD false = false ∧ o.newMode.getD s.mode ≠ .CUSTOM
    · rw [if_pos hc]
      exact Or.inr ⟨h1, h2⟩
    · rw [if_neg hc]
      exact Or.inl rfl

theorem textArrival_input (s : App) (k : Nat) (newText : JStr) :
    (textArrival s k newText).input = [] ∨ textArrival s k newText = s := by
  unfold textArrival
  split
  · exact Or.inl rfl
  · exact Or.inr rfl

theorem tick_fields (s : App) (id : Nat) :
    (tick s id).input = s.input ∧ (tick s id).text = s.text := by
  unfold tick
  split_ifs
  · exact endGame_fields s
  · exact ⟨rfl, rfl⟩
  · exact ⟨rfl, rfl⟩

theorem handleInput_fields (s s1 : App) (value : JStr) (nowStart now : Int)
    (hs : handleInput s value nowStart now = some s1) :
    s1 = s ∨ (s1.input = value ∧ s1.text = s.text) := by
  by_cases hacc : s.status = .IDLE ∨ s.status = .PLAYING
  · obtain ⟨el, st, _, _, heq⟩ := handleInput_accepted s value nowStart now hacc
    rw [heq] at hs
    have hmid : (if s.status = .IDLE then startGame s s nowStart else s).text = s.text := by
      split_ifs
      · exact (startGame_fields s s nowStart).2
      · rfl
    generalize (if s.status = .IDLE then startGame s s nowStart else s) = m at hs hmid
    cases hs
    right
    split_ifs
    · exact ⟨(endGame_fields _).1, (endGame_fields _).2.trans hmid⟩
    · exact ⟨rfl, hmid⟩
  · have hrej : s.status = .FINISHED ∨ s.status = .LOADING := by
      cases hst : s.status <;> simp [hst] at hacc ⊢
    rw [handleInput_noop s value nowStart now hrej] at hs
    cases hs
    exact Or.inl rfl

theorem bounded_step (s s1 : App) (e : Event) (h : s.input.length ≤ s.text.length)
    (hb : inputBounded s e = true) (hs : step s e = some s1) :
    s1.input.length ≤ s1.text.length := by
  cases e with
  | reset o =>
    cases hs
    rcases resetGame_input s o with h1 | ⟨h1, h2⟩
    · rw [h1]; exact Nat.zero_le _
    · rw [h1, h2]; exact h
  | textArrival k t =>
    cases hs
    rcases textArrival_input s k t with h1 | h1
    · rw [h1]; exact Nat.zero_le _
    · rw [h1]; exact h
  | handleInput v n1 n2 =>
    rcases handleInput_fields s s1 v n1 n2 hs with h1 | ⟨h1, h2⟩
    · rw [h1]; exact h
    · rw [h1, h2]
      simpa [inputBounded] using hb
  | tick id =>
    cases hs
    obtain ⟨h1, h2⟩ := tick_fields s id
    rw [h1, h2]; exact h

theorem bounded_run : ∀ (es : List Event) (s : App), s.input.length ≤ s.text.length →
    boundedTrace s es = true → ∃ s1, run s es = some s1 ∧ s1.input.length ≤ s1.text.length := by
  intro es
  induction es with
  | nil => intro s h _; exact ⟨s, rfl, h⟩
  | cons e es ih =>
    intro s h hb
    obtain ⟨s2, hs2⟩ := step_total s e
    simp only [boundedTrace, hs2, Bool.and_eq_true] at hb
    obtain ⟨s1, hrun, hle⟩ := ih s2 (bounded_step s s2 e h hb.1 hs2) hb.2
    exact ⟨s1, by simp only [run, hs2, Option.some_bind, hrun], hle⟩

set_option maxRecDepth 100000 in
unseal Rat.add Rat.mul Rat.inv Rat.sub in
/-- C8 (as stated, refuted): after a reset to the custom text `"ab"`, the keystroke
`"a"` and then a keystroke that appends a two-unit surrogate pair, the session is
reachable, still Playing, and holds an input of length 3 on a text of length 2. -/
theorem input_length_invariant_counterexample :
    run initialApp
        [.reset ⟨none, none, none, none, some (jstr "ab"), none⟩,
         .handleInput (jstr "a") 5 5,
         .handleInput [97, 55357, 56832] 6 7] = some overlongExample ∧
      Reachable overlongExample ∧ overlongExample.status = .PLAYING ∧
      overlongExample.text.length = 2 ∧ overlongExample.input.length = 3 ∧
      ¬ overlongExample.input.length ≤ overlongExample.text.length := by
  have h : run initialApp
        [.reset ⟨none, none, none, none, some (jstr "ab"), none⟩,
         .handleInput (jstr "a") 5 5,
         .handleInput [97, 55357, 56832] 6 7] = some overlongExample := by
    decide
  exact ⟨h, reachable_of_run _ _ _ Reachable.init h, by decide, by decide, by decide,
    by decide⟩

/-- C8 (amended): from the initial state, after any sequence of reset, text-arrival,
`handleInput` and tick events in which every `handleInput` value is at most as long
as the text of the state it is applied to, the run is defined and
`0 ≤ len(input) ≤ len(text)`. -/
theorem input_length_bounded (es : List Event) (hb : boundedTrace initialApp es = true) :
    ∃ s, run initialApp es = some s ∧ Reachable s ∧
      0 ≤ s.input.length ∧ s.input.length ≤ s.text.length := by
  obtain ⟨s, hrun, hle⟩ := bounded_run es initialApp (Nat.le_refl _) hb
  exact ⟨s, hrun, reachable_of_run es _ _ Reachable.init hrun, Nat.zero_le _, hle⟩

set_option maxRecDepth 100000 in
unseal Rat.add Rat.mul Rat.inv Rat.sub in
theorem input_length_bounded_witness :
    boundedTrace initialApp
        [.reset noOptions, .textArrival 0 (jstr "ab"), .handleInput (jstr "a") 5 5,
         .tick 1, .handleInput (jstr "ax") 6 7] = true ∧
    ∃ s, run initialApp
        [.reset noOptions, .textArrival 0 (jstr "ab"), .handleInput (jstr "a") 5 5,
         .tick 1, .handleInput (jstr "ax") 6 7] = some s ∧ Reachable s ∧
      0 ≤ s.input.length ∧ s.input.length ≤ s.text.length :=
  ⟨by decide,
    input_length_bounded
      [.reset noOptions, .textArrival 0 (jstr "ab"), .handleInput (jstr "a") 5 5,
       .tick 1, .handleInput (jstr "ax") 6 7] (by decide)⟩

theorem reachable_lastSecondExample : Reachable lastSecondExample :=
  reachable_of_run (List.replicate 29 (.tick 1)) _ _ reachable_playingExample (by decide)

theorem isTickOrInput_of_quiet (text : JStr) (id : Nat) (e : Event)
    (h : quietEvent text id e = true) : isTickOrInput e = true := by
  cases e <;> simp_all [quietEvent, isTickOrInput]

theorem tick_not_live (s : App) (id : Nat) (h : id ∉ s.liveTimers) : tick s id = s := by
  unfold tick
  rw [if_neg h]

theorem run_frozen : ∀ (es : List Event) (s : App), s.status = .FINISHED →
    s.liveTimers = [] → (∀ e ∈ es, isTickOrInput e = true) → run s es = some s := by
  intro es
  induction es with
  | nil => intro s _ _ _; rfl
  | cons e es ih =>
    intro s hst hlive hes
    have he := hes e (List.mem_cons_self _ _)
    have hrest : ∀ e1 ∈ es, isTickOrInput e1 = true :=
      fun e1 h1 => hes e1 (List.mem_cons_of_mem _ h1)
    have hstep : step s e = some s := by
      cases e with
      | reset o => simp [isTickOrInput] at he
      | textArrival k t => simp [isTickOrInput] at he
      | handleInput v n1 n2 => exact handleInput_noop s v n1 n2 (Or.inl hst)
      | tick id =>
        simp only [step]
        rw [tick_not_live s id (by rw [hlive]; exact List.not_mem_nil _)]
    simp only [run, hstep, Option.some_bind]
    exact ih s hst hlive hrest

theorem handleInput_playing (s : App) (value : JStr) (nowStart now : Int)
    (hst : s.status = .PLAYING) (hlen : value.length ≠ s.text.length) :
    ∃ st, handleInput s value nowStart now
      = some { s with input := value, stats := st, statsCalls := s.statsCalls + 1 } := by
  obtain ⟨el, st, _, _, heq⟩ := handleInput_accepted s value nowStart now (Or.inr hst)
  have hni : ¬ s.status = .IDLE := by rw [hst]; decide
  rw [if_neg hlen, if_neg hni] at heq
  exact ⟨st, heq⟩

theorem run_countdown (text : JStr) (id : Nat) (hid : id ≠ 0) :
    ∀ (es : List Event) (s : App) (m : Nat),
      s.status = .PLAYING → s.text = text → s.timerRef = some id → s.liveTimers = [id] →
      s.timeLeft = (m : Int) → 1 ≤ m → 0 < s.nextTimerId →
      (∀ e ∈ es, quietEvent text id e = true) →
      ∃ s1, run s es = some s1 ∧
        (countTicks es < m → s1.status = .PLAYING ∧
          s1.timeLeft = (m : Int) - (countTicks es : Int) ∧ s1.liveTimers = [id]) ∧
        (countTicks es = m → s1.status = .FINISHED ∧ s1.startTime = none ∧
          s1.timeLeft = 0 ∧ s1.liveTimers = []) := by
  intro es
  induction es with
  | nil =>
    intro s m hst _ _ hlive hleft hm _ _
    refine ⟨s, rfl, ?_, ?_⟩
    · intro _
      exact ⟨hst, by simp [countTicks, hleft], hlive⟩
    · intro h
      simp only [countTicks] at h
      omega
  | cons e es ih =>
    intro s m hst htext href hlive hleft hm hpos hes
    have he := hes e (List.mem_cons_self _ _)
    have hrest : ∀ e1 ∈ es, quietEvent text id e1 = true :=
      fun e1 h1 => hes e1 (List.mem_cons_of_mem _ h1)
    cases e with
    | reset o => simp [quietEvent] at he
    | textArrival k t => simp [quietEvent] at he
    | handleInput v n1 n2 =>
      have hlen : v.length ≠ s.text.length := by
        rw [htext]; simpa [quietEvent] using he
      obtain ⟨st, hstep⟩ := handleInput_playing s v n1 n2 hst hlen
      obtain ⟨s1, hrun, h1, h2⟩ :=
        ih { s with input := v, stats := st, statsCalls := s.statsCalls + 1 } m
          hst htext href hlive hleft hm hpos hrest
      refine ⟨s1, ?_, ?_, ?_⟩
      · simp only [run, step, hstep, Option.some_bind]
        exact hrun
      · simpa only [countTicks] using h1
      · simpa only [countTicks] using h2
    | tick j =>
      have hj : j = id := by simpa [quietEvent] using he
      subst hj
      have hmem : j ∈ s.liveTimers := by rw [hlive]; exact List.mem_singleton.mpr rfl
      have hinv : TimerInv s := ⟨hpos, Or.inr ⟨j, hid, href, hlive⟩⟩
      by_cases hlast : m = 1
      · have hle : s.timeLeft ≤ 1 := by rw [hleft, hlast]; norm_num
        have htick : tick s j = { endGame s with timeLeft := 0 } := by
          unfold tick
          rw [if_pos hmem, if_pos hle]
        rw [endGame_of_inv s hinv] at htick
        refine ⟨tick s j, ?_, ?_, ?_⟩
        · simp only [run, step, Option.some_bind]
          apply run_frozen es (tick s j)
          · rw [htick]
          · rw [htick]
          · exact fun e1 h1 => isTickOrInput_of_quiet text j e1 (hrest e1 h1)
        · intro h
          simp only [countTicks] at h
          omega
        · intro _
          rw [htick]
          exact ⟨rfl, rfl, rfl, rfl⟩
      · have hgt : ¬ s.timeLeft ≤ 1 := by rw [hleft]; omega
        have htick : tick s j = { s with timeLeft := s.timeLeft - 1 } := by
          unfold tick
          rw [if_pos hmem, if_neg hgt]
        obtain ⟨s1, hrun, h1, h2⟩ :=
          ih { s with timeLeft := s.timeLeft - 1 } (m - 1) hst htext href hlive
            (by simp only [hleft]; omega) (by omega) hpos hrest
        refine ⟨s1, ?_, ?_, ?_⟩
        · simp only [run, step, Option.some_bind, htick]
          exact hrun
        · intro h
          simp only [countTicks] at h
          obtain ⟨a, b, c⟩ := h1 (by omega)
          refine ⟨a, ?_, c⟩
          rw [b]
          simp only [countTicks]
          omega
        · intro h
          simp only [countTicks] at h
          exact h2 (by omega)

/-- C9: in Time mode with the countdown at `n ≥ 1`, the first keystroke of an attempt
(not completing the text) enters Playing with the countdown at `n` and one live
interval; after any further events that are ticks of that interval or keystrokes not
reaching `len(text)`, the run is defined and: if fewer than `n` ticks occurred the
status is still Playing, the countdown is `n - k` and the interval is live; if exactly
`n` ticks occurred the status is Finished, `startTime` is unset, the countdown is 0
and no interval is live. -/
theorem countdown_expiry (s0 : App) (n : Nat) (value : JStr) (nowStart now : Int)
    (es : List Event) (hr : Reachable s0) (hidle : s0.status = .IDLE)
    (hmode : s0.mode = .TIME) (hn : 1 ≤ n) (hleft : s0.timeLeft = (n : Int))
    (hlen : value.length ≠ s0.text.length)
    (hes : ∀ e ∈ es, quietEvent s0.text s0.nextTimerId e = true) :
    ∃ s s1, handleInput s0 value nowStart now = some s ∧ s.status = .PLAYING ∧
      s.timeLeft = (n : Int) ∧ s.liveTimers = [s0.nextTimerId] ∧ run s es = some s1 ∧
      (countTicks es < n → s1.status = .PLAYING ∧
        s1.timeLeft = (n : Int) - (countTicks es : Int) ∧
        s1.liveTimers = [s0.nextTimerId]) ∧
      (countTicks es = n → s1.status = .FINISHED ∧ s1.startTime = none ∧
        s1.timeLeft = 0 ∧ s1.liveTimers = []) := by
  have hinv := timerInv_of_reachable s0 hr
  obtain ⟨el, st, _, _, heq⟩ := handleInput_accepted s0 value nowStart now (Or.inl hidle)
  rw [if_neg hlen, if_pos hidle, startGame_of_inv s0 s0 nowStart hinv, if_pos hmode] at heq
  have hid : s0.nextTimerId ≠ 0 := Nat.pos_iff_ne_zero.mp hinv.1
  obtain ⟨s1, hrun, h1, h2⟩ := run_countdown s0.text s0.nextTimerId hid es
    { s0 with
      status := .PLAYING, startTime := some nowStart, timerRef := some s0.nextTimerId
      liveTimers := [s0.nextTimerId], nextTimerId := s0.nextTimerId + 1
      input := value, stats := st, statsCalls := s0.statsCalls + 1 }
    n rfl rfl rfl rfl hleft hn (Nat.succ_pos _) hes
  exact ⟨_, s1, heq, rfl, hleft, rfl, hrun, h1, h2⟩

theorem countdown_expiry_witness :
    Reachable idleExample ∧ idleExample.status = .IDLE ∧ idleExample.mode = .TIME ∧
    1 ≤ 30 ∧ idleExample.timeLeft = ((30 : Nat) : Int) ∧
    (jstr "a").length ≠ idleExample.text.length ∧
    (∀ e ∈ List.replicate 30 (Event.tick 1),
      quietEvent idleExample.text idleExample.nextTimerId e = true) ∧
    ∃ s s1, handleInput idleExample (jstr "a") 5 5 = some s ∧ s.status = .PLAYING ∧
      s.timeLeft = ((30 : Nat) : Int) ∧ s.liveTimers = [idleExample.nextTimerId] ∧
      run s (List.replicate 30 (Event.tick 1)) = some s1 ∧
      (countTicks (List.replicate 30 (Event.tick 1)) < 30 → s1.status = .PLAYING ∧
        s1.timeLeft = ((30 : Nat) : Int) - (countTicks (List.replicate 30 (Event.tick 1)) : Int) ∧
        s1.liveTimers = [idleExample.nextTimerId]) ∧
      (countTicks (List.replicate 30 (Event.tick 1)) = 30 → s1.status = .FINISHED ∧
        s1.startTime = none ∧ s1.timeLeft = 0 ∧ s1.liveTimers = []) :=
  ⟨reachable_idleExample, by decide, by decide, by decide, by decide, by decide, by decide,
    countdown_expiry idleExample 30 (jstr "a") 5 5 (List.replicate 30 (Event.tick 1))
      reachable_idleExample (by decide) (by decide) (by decide) (by decide) (by decide)
      (by decide)⟩

/-- C10: in every reachable state at most one countdown interval is live, and it is
the one stored in `timerRef`; `startGame` leaves at most one live interval, `endGame`
and `resetGame` leave none; and once a tick has expired the countdown (status
Finished, no interval live) no later tick or keystroke of that attempt has any
effect, so no second expiry fires. -/
theorem single_timer (s : App) (o : ResetOptions) (now : Int) (id : Nat) (es : List Event)
    (hr : Reachable s) (hes : ∀ e ∈ es, isTickOrInput e = true) :
    s.liveTimers.length ≤ 1 ∧ (∀ j ∈ s.liveTimers, s.timerRef = some j) ∧
      (startGame s s now).liveTimers.length ≤ 1 ∧ (endGame s).liveTimers = [] ∧
      (resetGame s o).liveTimers = [] ∧
      (id ∈ s.liveTimers → s.timeLeft ≤ 1 →
        (tick s id).status = .FINISHED ∧ (tick s id).liveTimers = [] ∧
          run (tick s id) es = some (tick s id)) := by
  have hinv := timerInv_of_reachable s hr
  have hlen : ∀ t : App, TimerInv t → t.liveTimers.length ≤ 1 := by
    intro t ht
    rcases ht.2 with h | ⟨j, _, _, h⟩ <;> simp [h]
  refine ⟨hlen s hinv, ?_, hlen _ (timerInv_startGame s s now hinv), ?_,
    (resetGame_timers s o hinv).1, ?_⟩
  · intro j hj
    rcases hinv.2 with h | ⟨k, _, href, h⟩
    · rw [h] at hj; exact absurd hj (List.not_mem_nil _)
    · rw [h] at hj
      rw [List.mem_singleton.mp hj]
      exact href
  · rw [endGame_of_inv s hinv]
  · intro hmem hle
    have htick : tick s id = { endGame s with timeLeft := 0 } := by
      unfold tick
      rw [if_pos hmem, if_pos hle]
    rw [endGame_of_inv s hinv] at htick
    have h1 : (tick s id).status = .FINISHED := by rw [htick]
    have h2 : (tick s id).liveTimers = [] := by rw [htick]
    exact ⟨h1, h2, run_frozen es (tick s id) h1 h2 hes⟩

theorem single_timer_witness :
    Reachable lastSecondExample ∧
    (∀ e ∈ [Event.tick 1, Event.handleInput (jstr "ab") 9 9, Event.tick 1],
      isTickOrInput e = true) ∧
    lastSecondExample.liveTimers.length ≤ 1 ∧
    (∀ j ∈ lastSecondExample.liveTimers, lastSecondExample.timerRef = some j) ∧
    (startGame lastSecondExample lastSecondExample 7).liveTimers.length ≤ 1 ∧
    (endGame lastSecondExample).liveTimers = [] ∧
    (resetGame lastSecondExample noOptions).liveTimers = [] ∧
    (1 ∈ lastSecondExample.liveTimers → lastSecondExample.timeLeft ≤ 1 →
      (tick lastSecondExample 1).status = .FINISHED ∧
        (tick lastSecondExample 1).liveTimers = [] ∧
        run (tick lastSecondExample 1)
            [Event.tick 1, Event.handleInput (jstr "ab") 9 9, Event.tick 1]
          = some (tick lastSecondExample 1)) :=
  ⟨reachable_lastSecondExample, by decide,
    single_timer lastSecondExample noOptions 7 1
      [Event.tick 1, Event.handleInput (jstr "ab") 9 9, Event.tick 1]
      reachable_lastSecondExample (by decide)⟩

/-! ## The reset protocol -/

theorem clearStoredTimer_with (s : App) :
    clearStoredTimer s = { s with liveTimers := (clearStoredTimer s).liveTimers } := by
  unfold clearStoredTimer clearInterval
  split
  · split_ifs <;> rfl
  · rfl

theorem truthyStr_of_nonempty (t : JStr) (h : t ≠ []) : truthyStr (some t) = some t := by
  cases t with
  | nil => exact absurd rfl h
  | cons a l => rfl

theorem resetGame_custom (s : App) (o : ResetOptions) (t : JStr)
    (h : truthyStr o.customText = some t) :
    resetGame s o = finishReset
      { applyOptions s (clearStoredTimer s) o with
        text := t, mode := .CUSTOM, status := .IDLE } := by
  unfold resetGame
  simp only [h]

theorem resetGame_fresh (s : App) (o : ResetOptions) (h1 : truthyStr o.customText = none)
    (h2 : o.keepText.getD false = false ∧ o.newMode.getD s.mode ≠ .CUSTOM) :
    resetGame s o =
      { applyOptions s (clearStoredTimer s) o with
        status := .LOADING
        pending := (applyOptions s (clearStoredTimer s) o).pending ++
          [if o.newMode.getD s.mode = .WORDS then (truthyNum o.newWordCount).getD s.wordCount
            else 100] } := by
  unfold resetGame
  simp only [h1]
  rw [if_pos h2]

theorem resetGame_kept (s : App) (o : ResetOptions) (h1 : truthyStr o.customText = none)
    (h2 : ¬ (o.keepText.getD false = false ∧ o.newMode.getD s.mode ≠ .CUSTOM)) :
    resetGame s o = finishReset { applyOptions s (clearStoredTimer s) o with status := .IDLE } := by
  unfold resetGame
  simp only [h1]
  rw [if_neg h2]

theorem applyOptions_clear_fields (s : App) (o : ResetOptions) :
    (applyOptions s (clearStoredTimer s) o).text = s.text ∧
    (applyOptions s (clearStoredTimer s) o).pending = s.pending ∧
    (applyOptions s (clearStoredTimer s) o).input = s.input ∧
    (applyOptions s (clearStoredTimer s) o).startTime = s.startTime ∧
    (applyOptions s (clearStoredTimer s) o).stats = s.stats ∧
    (applyOptions s (clearStoredTimer s) o).liveTimers = (clearStoredTimer s).liveTimers := by
  rw [clearStoredTimer_with s]
  exact ⟨rfl, rfl, rfl, rfl, rfl, rfl⟩

theorem applyOptions_clear_settings (s : App) (o : ResetOptions) :
    (applyOptions s (clearStoredTimer s) o).mode = o.newMode.getD s.mode ∧
    (applyOptions s (clearStoredTimer s) o).initialTime = (truthyNum o.newTime).getD s.initialTime ∧
    (applyOptions s (clearStoredTimer s) o).timeLeft = (truthyNum o.newTime).getD s.initialTime ∧
    (applyOptions s (clearStoredTimer s) o).wordCount
      = (truthyNum o.newWordCount).getD s.wordCount ∧
    (applyOptions s (clearStoredTimer s) o).difficulty = o.newDifficulty.getD s.difficulty := by
  rw [clearStoredTimer_with s]
  unfold applyOptions
  refine ⟨?_, ?_, ?_, ?_, ?_⟩
  · cases o.newMode <;> rfl
  · cases truthyNum o.newTime <;> rfl
  · cases truthyNum o.newTime <;> rfl
  · cases truthyNum o.newWordCount <;> rfl
  · cases o.newDifficulty <;> rfl

theorem eraseIdx_concat_length {α : Type} (l : List α) (a : α) :
    (l ++ [a]).eraseIdx l.length = l := by
  induction l with
  | nil => rfl
  | cons b l ih => simp [List.eraseIdx, ih]

theorem textArrival_of_lt (s : App) (k : Nat) (t : JStr) (h : k < s.pending.length) :
    textArrival s k t = finishReset
      { s with text := t, status := .IDLE, pending := s.pending.eraseIdx k } := by
  unfold textArrival
  rw [List.getElem?_eq_getElem h]

/-- C11 (as stated, refuted): a reset request that carries the empty string as
`customText` is treated as carrying none: from the idle Time-mode example it goes to
Loading, keeps mode Time and the text `"ab"`, and issues a request for 100 words. -/
theorem reset_custom_text_counterexample :
    (⟨none, none, none, none, some [], none⟩ : ResetOptions).customText = some [] ∧
    (resetGame idleExample ⟨none, none, none, none, some [], none⟩).status = .LOADING ∧
    (resetGame idleExample ⟨none, none, none, none, some [], none⟩).mode = .TIME ∧
    (resetGame idleExample ⟨none, none, none, none, some [], none⟩).text = jstr "ab" ∧
    (resetGame idleExample ⟨none, none, none, none, some [], none⟩).pending = [100] ∧
    ¬ ((resetGame idleExample ⟨none, none, none, none, some [], none⟩).mode = .CUSTOM ∧
      (resetGame idleExample ⟨none, none, none, none, some [], none⟩).status = .IDLE ∧
      (resetGame idleExample ⟨none, none, none, none, some [], none⟩).text = [] ∧
      (resetGame idleExample ⟨none, none, none, none, some [], none⟩).pending
        = idleExample.pending) := by
  decide

/-- C11 (amended): for every session and every reset request that carries a non-empty
`customText`, whatever its other fields: after the reset the mode is Custom, the
status is Idle, the text is `customText` verbatim, and no text request is issued. -/
theorem reset_custom_text (s : App) (o : ResetOptions) (t : JStr)
    (hc : o.customText = some t) (hne : t ≠ []) :
    (resetGame s o).mode = .CUSTOM ∧ (resetGame s o).status = .IDLE ∧
      (resetGame s o).text = t ∧ (resetGame s o).pending = s.pending := by
  have h : truthyStr o.customText = some t := by rw [hc]; exact truthyStr_of_nonempty t hne
  rw [resetGame_custom s o t h]
  exact ⟨rfl, rfl, rfl, (applyOptions_clear_fields s o).2.1⟩

theorem reset_custom_text_witness :
    (⟨some .WORDS, some 60, some 10, some .simple, some (jstr "xyz"), some true⟩
      : ResetOptions).customText = some (jstr "xyz") ∧ jstr "xyz" ≠ [] ∧
    (resetGame playingExample
      ⟨some .WORDS, some 60, some 10, some .simple, some (jstr "xyz"), some true⟩).mode
        = .CUSTOM ∧
    (resetGame playingExample
      ⟨some .WORDS, some 60, some 10, some .simple, some (jstr "xyz"), some true⟩).status
        = .IDLE ∧
    (resetGame playingExample
      ⟨some .WORDS, some 60, some 10, some .simple, some (jstr "xyz"), some true⟩).text
        = jstr "xyz" ∧
    (resetGame playingExample
      ⟨some .WORDS, some 60, some 10, some .simple, some (jstr "xyz"), some true⟩).pending
        = playingExample.pending :=
  ⟨rfl, by decide,
    reset_custom_text playingExample
      ⟨some .WORDS, some 60, some 10, some .simple, some (jstr "xyz"), some true⟩
      (jstr "xyz") rfl (by decide)⟩

/-- C12 (as stated, refuted): from the idle Time-mode example, a reset without
`customText`, with `keepText = true` and `newMode = Words` has an effective mode that
differs from the current one, yet it reuses the text with status Idle and issues no
request; it does not go to Loading. -/
theorem reset_keep_text_counterexample :
    (⟨some .WORDS, none, none, none, none, some true⟩ : ResetOptions).newMode.getD
        idleExample.mode ≠ idleExample.mode ∧
    (resetGame idleExample ⟨some .WORDS, none, none, none, none, some true⟩).status = .IDLE ∧
    (resetGame idleExample ⟨some .WORDS, none, none, none, none, some true⟩).text
      = idleExample.text ∧
    (resetGame idleExample ⟨some .WORDS, none, none, none, none, some true⟩).pending
      = idleExample.pending ∧
    (resetGame idleExample ⟨some .WORDS, none, none, none, none, some true⟩).mode = .WORDS ∧
    ¬ (resetGame idleExample ⟨some .WORDS, none, none, none, none, some true⟩).status
      = .LOADING := by
  decide

/-- C12 (amended): for every reset request without (non-empty) `customText` and with
`keepText = true`, the current text is reused with status Idle and no text request is
issued, whether or not the effective mode equals the current mode; the mode becomes
the effective mode. -/
theorem reset_keep_text (s : App) (o : ResetOptions)
    (hc : truthyStr o.customText = none) (hk : o.keepText = some true) :
    (resetGame s o).status = .IDLE ∧ (resetGame s o).text = s.text ∧
      (resetGame s o).pending = s.pending ∧ (resetGame s o).mode = o.newMode.getD s.mode := by
  have h2 : ¬ (o.keepText.getD false = false ∧ o.newMode.getD s.mode ≠ .CUSTOM) := by
    rw [hk]
    simp
  rw [resetGame_kept s o hc h2]
  obtain ⟨h1, h3, _⟩ := applyOptions_clear_fields s o
  exact ⟨rfl, h1, h3, (applyOptions_clear_settings s o).1⟩

theorem reset_keep_text_witness :
    truthyStr (⟨some .WORDS, none, none, none, none, some true⟩ : ResetOptions).customText
      = none ∧
    (⟨some .WORDS, none, none, none, none, some true⟩ : ResetOptions).keepText = some true ∧
    (resetGame playingExample ⟨some .WORDS, none, none, none, none, some true⟩).status
      = .IDLE ∧
    (resetGame playingExample ⟨some .WORDS, none, none, none, none, some true⟩).text
      = playingExample.text ∧
    (resetGame playingExample ⟨some .WORDS, none, none, none, none, some true⟩).pending
      = playingExample.pending ∧
    (resetGame playingExample ⟨some .WORDS, none, none, none, none, some true⟩).mode
      = (⟨some .WORDS, none, none, none, none, some true⟩ : ResetOptions).newMode.getD
          playingExample.mode :=
  ⟨rfl, rfl,
    reset_keep_text playingExample ⟨some .WORDS, none, none, none, none, some true⟩ rfl rfl⟩

/-- C13 (as stated, refuted): in Words mode with word count 25, a reset that gives
`newWordCount = 0` (no `customText`, no `keepText`) requests 25 words, the current
word count, not the given 0. -/
theorem reset_fresh_text_counterexample :
    (⟨none, none, some 0, none, none, none⟩ : ResetOptions).newWordCount = some 0 ∧
    idleWordsExample.mode = .WORDS ∧ idleWordsExample.wordCount = 25 ∧
    (resetGame idleWordsExample ⟨none, none, some 0, none, none, none⟩).status = .LOADING ∧
    (resetGame idleWordsExample ⟨none, none, some 0, none, none, none⟩).pending = [25] ∧
    ¬ (resetGame idleWordsExample ⟨none, none, some 0, none, none, none⟩).pending = [0] := by
  decide

/-- C13 (amended): for every reset request without (non-empty) `customText`, with
`keepText` absent or false and an effective mode Time or Words: the status becomes
Loading; exactly one text request is appended to the outstanding ones; its length is
100 in Time mode and, in Words mode, `newWordCount` when that is given and non-zero,
else the current word count; and when that request completes with a text, the text is
installed with status Idle and the request is no longer outstanding. -/
theorem reset_fresh_text (s : App) (o : ResetOptions) (t : JStr)
    (hc : truthyStr o.customText = none)
    (hk : o.keepText = none ∨ o.keepText = some false)
    (hm : o.newMode.getD s.mode = .TIME ∨ o.newMode.getD s.mode = .WORDS) :
    (resetGame s o).status = .LOADING ∧
      (resetGame s o).pending = s.pending ++
        [if o.newMode.getD s.mode = .WORDS then
          (match o.newWordCount with
            | some w => if w = 0 then s.wordCount else w
            | none => s.wordCount)
          else 100] ∧
      (textArrival (resetGame s o) s.pending.length t).text = t ∧
      (textArrival (resetGame s o) s.pending.length t).status = .IDLE ∧
      (textArrival (resetGame s o) s.pending.length t).pending = s.pending := by
  have h2 : o.keepText.getD false = false ∧ o.newMode.getD s.mode ≠ .CUSTOM := by
    constructor
    · rcases hk with h | h <;> rw [h] <;> rfl
    · rcases hm with h | h <;> rw [h] <;> decide
  have hw : (truthyNum o.newWordCount).getD s.wordCount
      = (match o.newWordCount with
          | some w => if w = 0 then s.wordCount else w
          | none => s.wordCount) := by
    cases o.newWordCount with
    | none => rfl
    | some w =>
      simp only [truthyNum]
      split_ifs <;> rfl
  have hp : (resetGame s o).pending = s.pending ++
      [if o.newMode.getD s.mode = .WORDS then
        (match o.newWordCount with
          | some w => if w = 0 then s.wordCount else w
          | none => s.wordCount)
        else 100] := by
    rw [resetGame_fresh s o hc h2, ← hw]
    show (applyOptions s (clearStoredTimer s) o).pending ++ _ = _
    rw [(applyOptions_clear_fields s o).2.1]
  have hlt : s.pending.length < (resetGame s o).pending.length := by
    rw [hp, List.length_append]
    simp
  refine ⟨by rw [resetGame_fresh s o hc h2], hp, ?_, ?_, ?_⟩
  · rw [textArrival_of_lt _ _ _ hlt]; rfl
  · rw [textArrival_of_lt _ _ _ hlt]; rfl
  · rw [textArrival_of_lt _ _ _ hlt]
    show (resetGame s o).pending.eraseIdx s.pending.length = s.pending
    rw [hp]
    exact eraseIdx_concat_length _ _

theorem reset_fresh_text_witness :
    truthyStr (⟨some .WORDS, none, some 10, none, none, none⟩ : ResetOptions).customText
      = none ∧
    ((⟨some .WORDS, none, some 10, none, none, none⟩ : ResetOptions).keepText = none ∨
      (⟨some .WORDS, none, some 10, none, none, none⟩ : ResetOptions).keepText
        = some false) ∧
    ((⟨some .WORDS, none, some 10, none, none, none⟩ : ResetOptions).newMode.getD
        idleExample.mode = .TIME ∨
      (⟨some .WORDS, none, some 10, none, none, none⟩ : ResetOptions).newMode.getD
        idleExample.mode = .WORDS) ∧
    (resetGame idleExample ⟨some .WORDS, none, some 10, none, none, none⟩).status
      = .LOADING ∧
    (resetGame idleExample ⟨some .WORDS, none, some 10, none, none, none⟩).pending
      = idleExample.pending ++
        [if (⟨some .WORDS, none, some 10, none, none, none⟩ : ResetOptions).newMode.getD
            idleExample.mode = .WORDS then
          (match (⟨some .WORDS, none, some 10, none, none, none⟩ : ResetOptions).newWordCount
            with
            | some w => if w = 0 then idleExample.wordCount else w
            | none => idleExample.wordCount)
          else 100] ∧
    (textArrival (resetGame idleExample ⟨some .WORDS, none, some 10, none, none, none⟩)
      idleExample.pending.length (jstr "cd")).text = jstr "cd" ∧
    (textArrival (resetGame idleExample ⟨some .WORDS, none, some 10, none, none, none⟩)
      idleExample.pending.length (jstr "cd")).status = .IDLE ∧
    (textArrival (resetGame idleExample ⟨some .WORDS, none, some 10, none, none, none⟩)
      idleExample.pending.length (jstr "cd")).pending = idleExample.pending :=
  ⟨rfl, Or.inl rfl, Or.inr rfl,
    reset_fresh_text idleExample ⟨some .WORDS, none, some 10, none, none, none⟩ (jstr "cd")
      rfl (Or.inl rfl) (Or.inr rfl)⟩

theorem reachable_twoPendingExample : Reachable twoPendingExample :=
  reachable_of_run [.reset noOptions, .reset newTextOptions] _ _ Reachable.init (by decide)

theorem requestsText_iff (s : App) (o : ResetOptions) :
    requestsText s o = true ↔ truthyStr o.customText = none ∧
      (o.keepText.getD false = false ∧ o.newMode.getD s.mode ≠ .CUSTOM) := by
  unfold requestsText
  rw [decide_eq_true_iff]

theorem textArrival_fields (s : App) (k : Nat) (t : JStr) (h : k < s.pending.length) :
    (textArrival s k t).text = t ∧ (textArrival s k t).status = .IDLE ∧
      (textArrival s k t).input = [] ∧ (textArrival s k t).startTime = none ∧
      (textArrival s k t).stats = resetStats ∧
      (textArrival s k t).liveTimers = s.liveTimers ∧
      (textArrival s k t).pending = s.pending.eraseIdx k := by
  rw [textArrival_of_lt s k t h]
  exact ⟨rfl, rfl, rfl, rfl, rfl, rfl, rfl⟩

unseal Rat.add Rat.mul Rat.inv Rat.sub in
/-- C14 (as stated, refuted): with two text requests outstanding, the first text
arrives, a key is typed (Time mode: the interval 1 starts) and then the second reset
completes: input, stats and startTime are reset and the status is Idle, but the
interval 1 is still live. -/
theorem reset_clears_session_counterexample :
    run twoPendingExample
        [.textArrival 0 (jstr "ab"), .handleInput (jstr "a") 5 5, .textArrival 0 (jstr "cd")]
      = some idleTimerExample ∧
    Reachable idleTimerExample ∧ idleTimerExample.status = .IDLE ∧
    idleTimerExample.input = [] ∧ idleTimerExample.startTime = none ∧
    idleTimerExample.liveTimers = [1] ∧ ¬ idleTimerExample.liveTimers = [] := by
  have h : run twoPendingExample
      [.textArrival 0 (jstr "ab"), .handleInput (jstr "a") 5 5, .textArrival 0 (jstr "cd")]
      = some idleTimerExample := by
    decide
  exact ⟨h, reachable_of_run _ _ _ reachable_twoPendingExample h, by decide, by decide,
    by decide, by decide, by decide⟩

/-- C14 (amended): for every reachable session and every reset request: right after
`resetGame` is called no timer is active; in the custom-text and kept-text branches
the reset is then complete with status Idle, input empty, stats
`{wpm:0, rawWpm:0, accuracy:100, correctChars:0, incorrectChars:0}` and startTime
unset; in the fresh-text branch the same holds, with no timer active, when the
requested text arrives before any other event; and whenever a requested text arrives
(for any session `s2` and outstanding request `k`), input, stats and startTime are
reset while the live timers are left as they are. -/
theorem reset_clears_session (s s2 : App) (o : ResetOptions) (t : JStr) (k : Nat)
    (hr : Reachable s) (hk : k < s2.pending.length) :
    (resetGame s o).liveTimers = [] ∧
    (requestsText s o = false →
      (resetGame s o).status = .IDLE ∧ (resetGame s o).input = [] ∧
      (resetGame s o).stats = ⟨0, 0, 100, 0, 0, none, none⟩ ∧
      (resetGame s o).startTime = none) ∧
    (requestsText s o = true →
      (textArrival (resetGame s o) s.pending.length t).status = .IDLE ∧
      (textArrival (resetGame s o) s.pending.length t).input = [] ∧
      (textArrival (resetGame s o) s.pending.length t).stats = ⟨0, 0, 100, 0, 0, none, none⟩ ∧
      (textArrival (resetGame s o) s.pending.length t).startTime = none ∧
      (textArrival (resetGame s o) s.pending.length t).liveTimers = []) ∧
    ((textArrival s2 k t).input = [] ∧
      (textArrival s2 k t).stats = ⟨0, 0, 100, 0, 0, none, none⟩ ∧
      (textArrival s2 k t).startTime = none ∧
      (textArrival s2 k t).liveTimers = s2.liveTimers) := by
  have hlive := (resetGame_timers s o (timerInv_of_reachable s hr)).1
  refine ⟨hlive, ?_, ?_, ?_⟩
  · intro hreq
    have hn : ¬ (truthyStr o.customText = none ∧
        (o.keepText.getD false = false ∧ o.newMode.getD s.mode ≠ .CUSTOM)) := by
      intro h
      rw [(requestsText_iff s o).mpr h] at hreq
      exact absurd hreq (by decide)
    cases hc : truthyStr o.customText with
    | some c =>
      rw [resetGame_custom s o c hc]
      exact ⟨rfl, rfl, rfl, rfl⟩
    | none =>
      rw [resetGame_kept s o hc (fun h2 => hn ⟨hc, h2⟩)]
      exact ⟨rfl, rfl, rfl, rfl⟩
  · intro hreq
    obtain ⟨hc, h2⟩ := (requestsText_iff s o).mp hreq
    have hlt : s.pending.length < (resetGame s o).pending.length := by
      rw [resetGame_fresh s o hc h2]
      show s.pending.length < ((applyOptions s (clearStoredTimer s) o).pending ++ _).length
      rw [(applyOptions_clear_fields s o).2.1, List.length_append]
      simp
    obtain ⟨_, h3, h4, h5, h6, h7, _⟩ := textArrival_fields (resetGame s o) _ t hlt
    exact ⟨h3, h4, h6, h5, h7.trans hlive⟩
  · obtain ⟨_, _, h4, h5, h6, h7, _⟩ := textArrival_fields s2 k t hk
    exact ⟨h4, h6, h5, h7⟩

theorem reset_clears_session_witness :
    Reachable playingExample ∧ 0 < twoPendingExample.pending.length ∧
    (resetGame playingExample newTextOptions).liveTimers = [] ∧
    (requestsText playingExample newTextOptions = false →
      (resetGame playingExample newTextOptions).status = .IDLE ∧
      (resetGame playingExample newTextOptions).input = [] ∧
      (resetGame playingExample newTextOptions).stats = ⟨0, 0, 100, 0, 0, none, none⟩ ∧
      (resetGame playingExample newTextOptions).startTime = none) ∧
    (requestsText playingExample newTextOptions = true →
      (textArrival (resetGame playingExample newTextOptions) playingExample.pending.length
        (jstr "cd")).status = .IDLE ∧
      (textArrival (resetGame playingExample newTextOptions) playingExample.pending.length
        (jstr "cd")).input = [] ∧
      (textArrival (resetGame playingExample newTextOptions) playingExample.pending.length
        (jstr "cd")).stats = ⟨0, 0, 100, 0, 0, none, none⟩ ∧
      (textArrival (resetGame playingExample newTextOptions) playingExample.pending.length
        (jstr "cd")).startTime = none ∧
      (textArrival (resetGame playingExample newTextOptions) playingExample.pending.length
        (jstr "cd")).liveTimers = []) ∧
    ((textArrival twoPendingExample 0 (jstr "cd")).input = [] ∧
      (textArrival twoPendingExample 0 (jstr "cd")).stats = ⟨0, 0, 100, 0, 0, none, none⟩ ∧
      (textArrival twoPendingExample 0 (jstr "cd")).startTime = none ∧
      (textArrival twoPendingExample 0 (jstr "cd")).liveTimers
        = twoPendingExample.liveTimers) :=
  ⟨reachable_playingExample, by decide,
    reset_clears_session playingExample twoPendingExample newTextOptions (jstr "cd") 0
      reachable_playingExample (by decide)⟩

unseal Rat.add Rat.mul Rat.inv Rat.sub in
/-- C15 (as stated, refuted): nothing discards a stale result. With two requests
outstanding, the second resolving with `"new"` and then the first with `"old"` leaves
the text `"old"`; and while the user plays on a custom text set by a second reset, the
late result `"ab"` of the first reset overwrites text, status, input and startTime. -/
theorem stale_result_counterexample :
    run twoPendingExample [.textArrival 1 (jstr "new"), .textArrival 0 (jstr "old")]
      = some staleTextExample ∧
    staleTextExample.text = jstr "old" ∧ ¬ staleTextExample.text = jstr "new" ∧
    run initialApp
        [.reset noOptions, .reset ⟨some .CUSTOM, none, none, none, some (jstr "cd"), none⟩,
         .handleInput (jstr "c") 5 5] = some customPlayingExample ∧
    customPlayingExample.text = jstr "cd" ∧ customPlayingExample.status = .PLAYING ∧
    customPlayingExample.input = jstr "c" ∧ customPlayingExample.startTime = some 5 ∧
    (textArrival customPlayingExample 0 (jstr "ab")).text = jstr "ab" ∧
    (textArrival customPlayingExample 0 (jstr "ab")).status = .IDLE ∧
    (textArrival customPlayingExample 0 (jstr "ab")).input = [] ∧
    (textArrival customPlayingExample 0 (jstr "ab")).startTime = none := by
  refine ⟨by decide, by decide, by decide, by decide, by decide,
    by decide, by decide, by decide, by decide, by decide, by decide, by decide⟩

/-- C15 (amended): a result that arrives for an outstanding request is installed
whether or not a newer reset was issued meanwhile: the text becomes the arrived text,
the status Idle, the input empty and startTime unset. Hence when two requests are
outstanding and both resolve, in either order, the final text is the one that arrived
last. -/
theorem stale_result_installed (s : App) (i j : Nat) (a b : JStr)
    (hi : i < s.pending.length) (hj : j < s.pending.length - 1) :
    (textArrival s i a).text = a ∧ (textArrival s i a).status = .IDLE ∧
      (textArrival s i a).input = [] ∧ (textArrival s i a).startTime = none ∧
      (textArrival (textArrival s i a) j b).text = b ∧
      (textArrival (textArrival s i a) j b).status = .IDLE ∧
      (textArrival (textArrival s i a) j b).input = [] ∧
      (textArrival (textArrival s i a) j b).startTime = none := by
  obtain ⟨h1, h2, h3, h4, _, _, h7⟩ := textArrival_fields s i a hi
  have hlt : j < (textArrival s i a).pending.length := by
    rw [h7, List.length_eraseIdx, if_pos hi]
    exact hj
  obtain ⟨g1, g2, g3, g4, _, _, _⟩ := textArrival_fields (textArrival s i a) j b hlt
  exact ⟨h1, h2, h3, h4, g1, g2, g3, g4⟩

theorem stale_result_installed_witness :
    1 < twoPendingExample.pending.length ∧ 0 < twoPendingExample.pending.length - 1 ∧
    (textArrival twoPendingExample 1 (jstr "new")).text = jstr "new" ∧
    (textArrival twoPendingExample 1 (jstr "new")).status = .IDLE ∧
    (textArrival twoPendingExample 1 (jstr "new")).input = [] ∧
    (textArrival twoPendingExample 1 (jstr "new")).startTime = none ∧
    (textArrival (textArrival twoPendingExample 1 (jstr "new")) 0 (jstr "old")).text
      = jstr "old" ∧
    (textArrival (textArrival twoPendingExample 1 (jstr "new")) 0 (jstr "old")).status
      = .IDLE ∧
    (textArrival (textArrival twoPendingExample 1 (jstr "new")) 0 (jstr "old")).input = [] ∧
    (textArrival (textArrival twoPendingExample 1 (jstr "new")) 0 (jstr "old")).startTime
      = none :=
  ⟨by decide, by decide,
    stale_result_installed twoPendingExample 1 0 (jstr "new") (jstr "old") (by decide)
      (by decide)⟩

/-! ## Text acquisition and the local fallback -/

theorem pickWords_eq (choices : Nat → Fin WORDS.length) :
    ∀ (fuel i : Nat) (words : List JStr),
      pickWords choices fuel i words
        = words ++ (List.range' i fuel).map (fun j => WORDS.get (choices j)) := by
  intro fuel
  induction fuel with
  | zero => intro i words; simp [pickWords]
  | succ n ih =>
    intro i words
    rw [pickWords, ih, List.range'_succ, List.map_cons, List.append_assoc]
    rfl

theorem generateLocalText_of_pos (n : Int) (choices : Nat → Fin WORDS.length) (hn : 1 ≤ n) :
    generateLocalText n choices = some
      (List.intercalate [32]
        (capitalize (WORDS.get (choices 0)) ::
          (List.range' 1 (n.toNat - 1)).map (fun j => WORDS.get (choices j))) ++ [46]) := by
  obtain ⟨m, hm⟩ : ∃ m : Nat, n.toNat = m + 1 := ⟨n.toNat - 1, by omega⟩
  unfold generateLocalText
  rw [pickWords_eq, hm, List.range'_succ]
  simp

theorem generateLocalText_of_nonpos (n : Int) (choices : Nat → Fin WORDS.length)
    (hn : n ≤ 0) : generateLocalText n choices = none := by
  have h0 : n.toNat = 0 := by omega
  unfold generateLocalText
  rw [h0]
  rfl

theorem intercalate_cons_cons_eq {α : Type} (sep a b : List α) (l : List (List α)) :
    List.intercalate sep (a :: b :: l) = a ++ (sep ++ List.intercalate sep (b :: l)) := by
  simp [List.intercalate]

theorem intercalate_single_eq {α : Type} (sep a : List α) :
    List.intercalate sep [a] = a := by
  simp [List.intercalate]

theorem not_mem_intercalate {α : Type} (a : α) (sep : List α) (hs : a ∉ sep) :
    ∀ (ls : List (List α)), (∀ l ∈ ls, a ∉ l) → a ∉ List.intercalate sep ls := by
  intro ls
  induction ls with
  | nil => intro _; simp [List.intercalate]
  | cons b l ih =>
    intro h
    cases l with
    | nil =>
      rw [intercalate_single_eq]
      exact h b (List.mem_cons_self _ _)
    | cons c l1 =>
      rw [intercalate_cons_cons_eq]
      intro hmem
      rcases List.mem_append.mp hmem with h1 | h1
      · exact h b (List.mem_cons_self _ _) h1
      · rcases List.mem_append.mp h1 with h2 | h2
        · exact hs h2
        · exact ih (fun l hl => h l (List.mem_cons_of_mem _ hl)) h2

theorem vocabulary_clean :
    ∀ x ∈ WORDS, x ≠ [] ∧ 32 ∉ x ∧ 46 ∉ x ∧ 32 ∉ capitalize x ∧ 46 ∉ capitalize x := by
  decide

/-- C16 (as stated, refuted): `generateLocalText(0)` does not return a text. Whatever
the random choices, the `words` array is empty, `words[0]` is `undefined` and
`words[0].charAt(0)` throws a `TypeError`. -/
theorem generateLocalText_zero_counterexample :
    (∀ choices, generateLocalText 0 choices = none) ∧
    ¬ ∃ t, generateLocalText 0 firstWordChoices = some t := by
  refine ⟨fun choices => generateLocalText_of_nonpos 0 choices (le_refl _), ?_⟩
  rintro ⟨t, ht⟩
  rw [generateLocalText_of_nonpos 0 firstWordChoices (le_refl _)] at ht
  exact Option.noConfusion ht

/-- C16 (amended): for every word count `n ≥ 1` and every outcome of the random
choices, `generateLocalText(n)` returns `n` vocabulary words, the first with its first
letter upper-cased, joined by single spaces and followed by one period: the words
contain neither a space nor a period, so splitting the text before the period on
single spaces gives back exactly these `n` words. -/
theorem generateLocalText_words (n : Int) (choices : Nat → Fin WORDS.length) (hn : 1 ≤ n) :
    ∃ w rest, generateLocalText n choices
        = some (List.intercalate [32] (capitalize w :: rest) ++ [46]) ∧
      w ∈ WORDS ∧ (∀ x ∈ rest, x ∈ WORDS) ∧ ((rest.length : Int) + 1 = n) ∧
      (List.intercalate [32] (capitalize w :: rest)).splitOn 32 = capitalize w :: rest ∧
      46 ∉ List.intercalate [32] (capitalize w :: rest) := by
  have hw : WORDS.get (choices 0) ∈ WORDS := List.get_mem _ _ _
  have hrest : ∀ x ∈ (List.range' 1 (n.toNat - 1)).map (fun j => WORDS.get (choices j)),
      x ∈ WORDS := by
    intro x hx
    obtain ⟨j, _, rfl⟩ := List.mem_map.mp hx
    exact List.get_mem _ _ _
  have hpieces : ∀ l ∈ capitalize (WORDS.get (choices 0)) ::
      (List.range' 1 (n.toNat - 1)).map (fun j => WORDS.get (choices j)),
      32 ∉ l ∧ 46 ∉ l := by
    intro l hl
    rcases List.mem_cons.mp hl with h | h
    · rw [h]
      exact ⟨(vocabulary_clean _ hw).2.2.2.1, (vocabulary_clean _ hw).2.2.2.2⟩
    · exact ⟨(vocabulary_clean _ (hrest l h)).2.1, (vocabulary_clean _ (hrest l h)).2.2.1⟩
  refine ⟨WORDS.get (choices 0), _, generateLocalText_of_pos n choices hn, hw, hrest, ?_, ?_, ?_⟩
  · rw [List.length_map, List.length_range']
    omega
  · exact List.splitOn_intercalate _ 32 (fun l hl => (hpieces l hl).1) (List.cons_ne_nil _ _)
  · exact not_mem_intercalate 46 [32] (by decide) _ (fun l hl => (hpieces l hl).2)

theorem generateLocalText_words_witness :
    (1 : Int) ≤ 3 ∧ ∃ w rest, generateLocalText 3 firstWordChoices
        = some (List.intercalate [32] (capitalize w :: rest) ++ [46]) ∧
      w ∈ WORDS ∧ (∀ x ∈ rest, x ∈ WORDS) ∧ ((rest.length : Int) + 1 = 3) ∧
      (List.intercalate [32] (capitalize w :: rest)).splitOn 32 = capitalize w :: rest ∧
      46 ∉ List.intercalate [32] (capitalize w :: rest) :=
  ⟨by decide, generateLocalText_words 3 firstWordChoices (by decide)⟩


theorem clearStoredTimer_counts (s : App) :
    (clearStoredTimer s).wordCount = s.wordCount ∧ (clearStoredTimer s).pending = s.pending := by
  rw [clearStoredTimer_with s]
  exact ⟨rfl, rfl⟩

theorem endGame_counts (s : App) :
    (endGame s).wordCount = s.wordCount ∧ (endGame s).pending = s.pending :=
  clearStoredTimer_counts s

theorem startGame_counts (r s : App) (now : Int) :
    (startGame r s now).wordCount = s.wordCount ∧ (startGame r s now).pending = s.pending := by
  unfold startGame
  have h := clearStoredTimer_counts { s with status := .PLAYING, startTime := some now }
  split_ifs
  · exact h
  · exact h

theorem tick_counts (s : App) (id : Nat) :
    (tick s id).wordCount = s.wordCount ∧ (tick s id).pending = s.pending := by
  unfold tick
  split_ifs
  · exact endGame_counts s
  · exact ⟨rfl, rfl⟩
  · exact ⟨rfl, rfl⟩

theorem handleInput_counts (s s1 : App) (value : JStr) (nowStart now : Int)
    (hs : handleInput s value nowStart now = some s1) :
    s1.wordCount = s.wordCount ∧ s1.pending = s.pending := by
  by_cases hacc : s.status = .IDLE ∨ s.status = .PLAYING
  · obtain ⟨el, st, _, _, heq⟩ := handleInput_accepted s value nowStart now hacc
    rw [heq] at hs
    have hmid : (if s.status = .IDLE then startGame s s nowStart else s).wordCount
          = s.wordCount ∧
        (if s.status = .IDLE then startGame s s nowStart else s).pending = s.pending := by
      split_ifs
      · exact startGame_counts s s nowStart
      · exact ⟨rfl, rfl⟩
    generalize (if s.status = .IDLE then startGame s s nowStart else s) = m at hs hmid
    cases hs
    split_ifs
    · exact ⟨(endGame_counts _).1.trans hmid.1, (endGame_counts _).2.trans hmid.2⟩
    · exact hmid
  · have hrej : s.status = .FINISHED ∨ s.status = .LOADING := by
      cases hst : s.status <;> simp [hst] at hacc ⊢
    rw [handleInput_noop s value nowStart now hrej] at hs
    cases hs
    exact ⟨rfl, rfl⟩

theorem resetGame_wordCount (s : App) (o : ResetOptions) :
    (resetGame s o).wordCount = (truthyNum o.newWordCount).getD s.wordCount := by
  have h := (applyOptions_clear_settings s o).2.2.2.1
  cases hc : truthyStr o.customText with
  | some c => rw [resetGame_custom s o c hc]; exact h
  | none =>
    by_cases h2 : o.keepText.getD false = false ∧ o.newMode.getD s.mode ≠ .CUSTOM
    · rw [resetGame_fresh s o hc h2]; exact h
    · rw [resetGame_kept s o hc h2]; exact h

theorem resetGame_pending (s : App) (o : ResetOptions) :
    (requestsText s o = false → (resetGame s o).pending = s.pending) ∧
    (requestsText s o = true → (resetGame s o).pending = s.pending ++
      [if o.newMode.getD s.mode = .WORDS then (truthyNum o.newWordCount).getD s.wordCount
        else 100]) := by
  have hp := (applyOptions_clear_fields s o).2.1
  constructor
  · intro hreq
    have hn : ¬ (truthyStr o.customText = none ∧
        (o.keepText.getD false = false ∧ o.newMode.getD s.mode ≠ .CUSTOM)) := by
      intro h
      rw [(requestsText_iff s o).mpr h] at hreq
      exact Bool.noConfusion hreq
    cases hc : truthyStr o.customText with
    | some c => rw [resetGame_custom s o c hc]; exact hp
    | none => rw [resetGame_kept s o hc (fun h2 => hn ⟨hc, h2⟩)]; exact hp
  · intro hreq
    obtain ⟨hc, h2⟩ := (requestsText_iff s o).mp hreq
    rw [resetGame_fresh s o hc h2]
    show (applyOptions s (clearStoredTimer s) o).pending ++ _ = _
    rw [hp]

theorem callOptions_wordCount (c : ResetCall) (d : Int) (hd : 1 ≤ d) :
    1 ≤ (truthyNum (callOptions c).newWordCount).getD d := by
  cases c with
  | wordCountChange i =>
    have : ∀ j : Fin 4, 1 ≤ (truthyNum (callOptions (.wordCountChange j)).newWordCount).getD d := by
      intro j
      fin_cases j <;> simp [callOptions, wordCountChoice, truthyNum]
    exact this i
  | _ => exact hd

theorem countsPositive_reset (s : App) (c : ResetCall) (h : CountsPositive s) :
    CountsPositive (resetGame s (callOptions c)) := by
  obtain ⟨hw, hp⟩ := h
  have heff := callOptions_wordCount c s.wordCount hw
  refine ⟨by rw [resetGame_wordCount]; exact heff, ?_⟩
  intro n hn
  cases hreq : requestsText s (callOptions c) with
  | false =>
    rw [(resetGame_pending s (callOptions c)).1 hreq] at hn
    exact hp n hn
  | true =>
    rw [(resetGame_pending s (callOptions c)).2 hreq] at hn
    rcases List.mem_append.mp hn with h1 | h1
    · exact hp n h1
    · rw [List.mem_singleton] at h1
      rw [h1]
      split_ifs
      · exact heff
      · norm_num

theorem countsPositive_of_reachable (s : App) (h : ReachableByApp s) : CountsPositive s := by
  induction h with
  | init =>
    refine ⟨by decide, ?_⟩
    intro n hn
    exact absurd hn (List.not_mem_nil _)
  | call c _ ih => exact countsPositive_reset _ c ih
  | @arrival s k t _ ih =>
    unfold textArrival
    split
    · exact ⟨ih.1, fun n hn => ih.2 n (List.mem_of_mem_eraseIdx hn)⟩
    · exact ih
  | input v n1 n2 _ hs ih =>
    obtain ⟨h1, h2⟩ := handleInput_counts _ _ v n1 n2 hs
    exact ⟨h1 ▸ ih.1, h2 ▸ ih.2⟩
  | tick id _ ih =>
    obtain ⟨h1, h2⟩ := tick_counts _ id
    unfold CountsPositive
    rw [h1, h2]
    exact ih

theorem resolveRequest_failure (s : App) (k : Nat) (n : Int)
    (choices : Nat → Fin WORDS.length) (hk : s.pending[k]? = some n) (hn : 1 ≤ n) :
    ∃ t, generateLocalText n choices = some t ∧ fetchText none choices n = some t ∧
      (resolveRequest s k none choices).status = .IDLE ∧
      (resolveRequest s k none choices).text = t := by
  obtain ⟨t, ht⟩ : ∃ t, fetchText none choices n = some t :=
    ⟨_, generateLocalText_of_pos n choices hn⟩
  have hlt : k < s.pending.length := by
    by_contra hge
    rw [List.getElem?_eq_none (by omega)] at hk
    exact Option.noConfusion hk
  have hres : resolveRequest s k none choices = textArrival s k t := by
    unfold resolveRequest
    rw [hk]
    simp only [ht]
  obtain ⟨h1, h2, _⟩ := textArrival_fields s k t hlt
  exact ⟨t, ht, ht, by rw [hres]; exact h2, by rw [hres]; exact h1⟩

theorem reachableByApp_idleExample : ReachableByApp idleExample := by
  have h : textArrival (resetGame initialApp (callOptions .mount)) 0 (jstr "ab")
      = idleExample := by decide
  exact h ▸ ReachableByApp.arrival 0 (jstr "ab") (ReachableByApp.call .mount .init)

theorem reachableByApp_twoPendingExample : ReachableByApp twoPendingExample := by
  have h : resetGame (resetGame initialApp (callOptions .mount)) (callOptions .newTest)
      = twoPendingExample := by decide
  exact h ▸ ReachableByApp.call .newTest (ReachableByApp.call .mount .init)

/-- C17: in every state the component can reach, for every reset call that triggers a
text request, the requested length `n` is at least 1: when `fetchQuotes` fails,
`fetchText` does not fail but returns the locally generated fallback text, and the
session leaves Loading and ends in status Idle with that text. The same holds for
every request `k` that is outstanding in a state `s2` the component can reach. -/
theorem fetchText_fallback (s s2 : App) (c : ResetCall) (k : Nat)
    (choices : Nat → Fin WORDS.length) (hr : ReachableByApp s)
    (hreq : requestsText s (callOptions c) = true) (hr2 : ReachableByApp s2)
    (hk : k < s2.pending.length) :
    (∃ n t, (resetGame s (callOptions c)).pending = s.pending ++ [n] ∧ 1 ≤ n ∧
      generateLocalText n choices = some t ∧ fetchText none choices n = some t ∧
      (resetGame s (callOptions c)).status = .LOADING ∧
      (resolveRequest (resetGame s (callOptions c)) s.pending.length none choices).status
        = .IDLE ∧
      (resolveRequest (resetGame s (callOptions c)) s.pending.length none choices).text = t) ∧
    (∃ n t, s2.pending[k]? = some n ∧ 1 ≤ n ∧
      generateLocalText n choices = some t ∧ fetchText none choices n = some t ∧
      (resolveRequest s2 k none choices).status = .IDLE ∧
      (resolveRequest s2 k none choices).text = t) := by
  constructor
  · have hinv := countsPositive_reset s c (countsPositive_of_reachable s hr)
    have hp := (resetGame_pending s (callOptions c)).2 hreq
    generalize hn : (if (callOptions c).newMode.getD s.mode = .WORDS then
      (truthyNum (callOptions c).newWordCount).getD s.wordCount else 100) = n at hp
    have hn1 : 1 ≤ n := hinv.2 n (by rw [hp]; simp)
    have hget : (resetGame s (callOptions c)).pending[s.pending.length]? = some n := by
      rw [hp, List.getElem?_append_right (le_refl _)]
      simp
    obtain ⟨t, h1, h2, h3, h4⟩ := resolveRequest_failure _ _ n choices hget hn1
    obtain ⟨hc, h2c⟩ := (requestsText_iff s (callOptions c)).mp hreq
    exact ⟨n, t, hp, hn1, h1, h2, by rw [resetGame_fresh s _ hc h2c], h3, h4⟩
  · have hinv := countsPositive_of_reachable s2 hr2
    have hget : s2.pending[k]? = some (s2.pending[k]) := List.getElem?_eq_getElem hk
    have hn1 : 1 ≤ s2.pending[k] := hinv.2 _ (List.getElem_mem hk)
    obtain ⟨t, h1, h2, h3, h4⟩ := resolveRequest_failure s2 k _ choices hget hn1
    exact ⟨_, t, hget, hn1, h1, h2, h3, h4⟩

theorem fetchText_fallback_witness :
    ReachableByApp idleExample ∧
    requestsText idleExample (callOptions (.wordCountChange 0)) = true ∧
    ReachableByApp twoPendingExample ∧ 1 < twoPendingExample.pending.length ∧
    (∃ n t, (resetGame idleExample (callOptions (.wordCountChange 0))).pending
        = idleExample.pending ++ [n] ∧ 1 ≤ n ∧
      generateLocalText n firstWordChoices = some t ∧
      fetchText none firstWordChoices n = some t ∧
      (resetGame idleExample (callOptions (.wordCountChange 0))).status = .LOADING ∧
      (resolveRequest (resetGame idleExample (callOptions (.wordCountChange 0)))
        idleExample.pending.length none firstWordChoices).status = .IDLE ∧
      (resolveRequest (resetGame idleExample (callOptions (.wordCountChange 0)))
        idleExample.pending.length none firstWordChoices).text = t) ∧
    (∃ n t, twoPendingExample.pending[1]? = some n ∧ 1 ≤ n ∧
      generateLocalText n firstWordChoices = some t ∧
      fetchText none firstWordChoices n = some t ∧
      (resolveRequest twoPendingExample 1 none firstWordChoices).status = .IDLE ∧
      (resolveRequest twoPendingExample 1 none firstWordChoices).text = t) :=
  ⟨reachableByApp_idleExample, by decide, reachableByApp_twoPendingExample, by decide,
    fetchText_fallback idleExample twoPendingExample (.wordCountChange 0) 1
      firstWordChoices reachableByApp_idleExample (by decide)
      reachableByApp_twoPendingExample (by decide)⟩
theorem resetGame_settings (s : App) (o : ResetOptions) (hc : truthyStr o.customText = none) :
    (resetGame s o).mode = o.newMode.getD s.mode ∧
    (resetGame s o).initialTime = (truthyNum o.newTime).getD s.initialTime ∧
    (resetGame s o).timeLeft = (truthyNum o.newTime).getD s.initialTime ∧
    (resetGame s o).wordCount = (truthyNum o.newWordCount).getD s.wordCount ∧
    (resetGame s o).difficulty = o.newDifficulty.getD s.difficulty := by
  by_cases h2 : o.keepText.getD false = false ∧ o.newMode.getD s.mode ≠ .CUSTOM
  · rw [resetGame_fresh s o hc h2]
    exact applyOptions_clear_settings s o
  · rw [resetGame_kept s o hc h2]
    exact applyOptions_clear_settings s o

theorem truthyNum_getD (x : Option Int) (d : Int) :
    (truthyNum x).getD d = (match x with
      | some v => if v = 0 then d else v
      | none => d) := by
  cases x with
  | none => rfl
  | some v =>
    simp only [truthyNum]
    split_ifs <;> rfl

/-- C18 (as stated, refuted): a reset that provides `newTime = 0` leaves the time limit
at 30, and one that provides `newWordCount = 0` leaves the word count at 25: a
provided zero is treated as absent. -/
theorem reset_settings_counterexample :
    (⟨none, some 0, some 0, none, none, none⟩ : ResetOptions).customText = none ∧
    (⟨none, some 0, some 0, none, none, none⟩ : ResetOptions).newTime = some 0 ∧
    (⟨none, some 0, some 0, none, none, none⟩ : ResetOptions).newWordCount = some 0 ∧
    (resetGame idleExample ⟨none, some 0, some 0, none, none, none⟩).initialTime = 30 ∧
    (resetGame idleExample ⟨none, some 0, some 0, none, none, none⟩).wordCount = 25 ∧
    ¬ (resetGame idleExample ⟨none, some 0, some 0, none, none, none⟩).initialTime = 0 ∧
    ¬ (resetGame idleExample ⟨none, some 0, some 0, none, none, none⟩).wordCount = 0 := by
  decide

/-- C18 (amended): for every reset request without (non-empty) `customText`, after the
reset the time limit (and the countdown) equals `newTime` when the request provides a
non-zero `newTime` and the previous time limit otherwise; `wordCount` equals
`newWordCount` when a non-zero one is provided and is unchanged otherwise;
`difficulty` and `mode` equal `newDifficulty` and `newMode` when provided and are
unchanged otherwise. -/
theorem reset_settings (s : App) (o : ResetOptions) (hc : truthyStr o.customText = none) :
    (resetGame s o).initialTime = (match o.newTime with
      | some t => if t = 0 then s.initialTime else t
      | none => s.initialTime) ∧
    (resetGame s o).timeLeft = (match o.newTime with
      | some t => if t = 0 then s.initialTime else t
      | none => s.initialTime) ∧
    (resetGame s o).wordCount = (match o.newWordCount with
      | some w => if w = 0 then s.wordCount else w
      | none => s.wordCount) ∧
    (resetGame s o).difficulty = (match o.newDifficulty with
      | some d => d
      | none => s.difficulty) ∧
    (resetGame s o).mode = (match o.newMode with
      | some m => m
      | none => s.mode) := by
  obtain ⟨h1, h2, h3, h4, h5⟩ := resetGame_settings s o hc
  refine ⟨?_, ?_, ?_, ?_, ?_⟩
  · rw [h2, truthyNum_getD]
  · rw [h3, truthyNum_getD]
  · rw [h4, truthyNum_getD]
  · rw [h5]; cases o.newDifficulty <;> rfl
  · rw [h1]; cases o.newMode <;> rfl

theorem reset_settings_witness :
    truthyStr (⟨some .WORDS, some 60, none, some .advanced, none, none⟩
      : ResetOptions).customText = none ∧
    (resetGame idleExample ⟨some .WORDS, some 60, none, some .advanced, none, none⟩).initialTime
      = 60 ∧
    (resetGame idleExample ⟨some .WORDS, some 60, none, some .advanced, none, none⟩).timeLeft
      = 60 ∧
    (resetGame idleExample ⟨some .WORDS, some 60, none, some .advanced, none, none⟩).wordCount
      = 25 ∧
    (resetGame idleExample ⟨some .WORDS, some 60, none, some .advanced, none, none⟩).difficulty
      = .advanced ∧
    (resetGame idleExample ⟨some .WORDS, some 60, none, some .advanced, none, none⟩).mode
      = .WORDS :=
  ⟨rfl,
    reset_settings idleExample ⟨some .WORDS, some 60, none, some .advanced, none, none⟩ rfl⟩

/-! ## Best score and speed ordering -/

/-- C19: for every final `wpm` and every stored best (absent counting as 0), the
`Results` effect writes the store exactly when `wpm` is strictly greater than the
stored best; what it writes is `wpm` (otherwise the store is untouched); and the high
score shown afterwards is `max(wpm, stored best)`. -/
theorem results_effect_best (wpm : Int) (storedBest : Option Int) :
    ((resultsEffect wpm storedBest).wrote = true ↔ storedBest.getD 0 < wpm) ∧
    ((resultsEffect wpm storedBest).store
      = if storedBest.getD 0 < wpm then some wpm else storedBest) ∧
    (resultsEffect wpm storedBest).highScore = max wpm (storedBest.getD 0) := by
  have hb : (match storedBest with
      | some b => b
      | none => (0 : Int)) = storedBest.getD 0 := by
    cases storedBest <;> rfl
  unfold resultsEffect
  simp only [hb]
  by_cases h : storedBest.getD 0 < wpm
  · have h1 : wpm > storedBest.getD 0 := h
    rw [if_pos h1, if_pos h]
    exact ⟨⟨fun _ => h, fun _ => rfl⟩, rfl, (max_eq_left (le_of_lt h)).symm⟩
  · have h1 : ¬ wpm > storedBest.getD 0 := h
    rw [if_neg h1, if_neg h]
    refine ⟨⟨fun hw => ?_, fun hw => absurd hw h⟩, rfl, (max_eq_right (not_lt.mp h)).symm⟩
    exact Bool.noConfusion hw

theorem mathRound_mono (x y : ℚ) (h : x ≤ y) : mathRound x ≤ mathRound y := by
  unfold mathRound
  exact Int.floor_mono (by linarith)

theorem mathRound_nonneg (x : ℚ) (h : 0 ≤ x) : 0 ≤ mathRound x := by
  unfold mathRound
  exact Int.floor_nonneg.mpr (by linarith)

/-- C20: for every text, input and elapsed time, the stats returned by
`calculateStats` satisfy `0 ≤ wpm ≤ rawWpm`. -/
theorem wpm_le_rawWpm (text input : JStr) (t : ℚ) :
    ∃ st, calculateStats text input t = some st ∧ 0 ≤ st.wpm ∧ st.wpm ≤ st.rawWpm := by
  refine ⟨_, calculateStats_eq text input t, ?_, ?_⟩
  · show 0 ≤ mathRound _
    apply mathRound_nonneg
    split_ifs with hm
    · exact fl_nonneg _ (div_nonneg
        (fl_nonneg _ (div_nonneg (Nat.cast_nonneg _) (by norm_num))) (le_of_lt hm))
    · exact le_refl _
  · show mathRound _ ≤ mathRound _
    apply mathRound_mono
    have hle : (correctCount text input : ℚ) ≤ (input.length : ℚ) := by
      have := correct_add_incorrect text input
      exact_mod_cast (by omega : correctCount text input ≤ input.length)
    split_ifs with hm
    · exact fl_mono _ _ (div_le_div_of_nonneg_right
        (fl_mono _ _ (div_le_div_of_nonneg_right hle (by norm_num))) (le_of_lt hm))
    · exact le_refl _

/-! ## The text cut from the fetched quotes -/

theorem intercalate_take_starts {α : Type} (sep : List α) :
    ∀ (ls : List (List α)) (k : Nat),
      List.intercalate sep (ls.take k) <+: List.intercalate sep ls := by
  intro ls
  induction ls with
  | nil => intro k; simp
  | cons a l ih =>
    intro k
    cases k with
    | zero => simp [List.intercalate]
    | succ k1 =>
      cases l with
      | nil => simp
      | cons b l1 =>
        cases k1 with
        | zero =>
          rw [List.take_succ_cons, List.take_zero, intercalate_single_eq,
            intercalate_cons_cons_eq]
          exact List.prefix_append _ _
        | succ k2 =>
          have h := ih (k2 + 1)
          rw [List.take_succ_cons] at h ⊢
          rw [List.take_succ_cons, intercalate_cons_cons_eq, intercalate_cons_cons_eq,
            List.prefix_append_right_inj, List.prefix_append_right_inj]
          exact h

theorem splitOnP_pieces (p : Nat → Bool) :
    ∀ (xs : List Nat), ∀ l ∈ xs.splitOnP p, ∀ y ∈ l, ¬ p y = true := by
  intro xs
  induction xs with
  | nil =>
    intro l hl y hy
    simp only [List.splitOnP_nil, List.mem_singleton] at hl
    subst hl
    exact absurd hy (List.not_mem_nil _)
  | cons x xs ih =>
    intro l hl y hy
    rw [List.splitOnP_cons] at hl
    by_cases hx : p x = true
    · rw [if_pos hx] at hl
      rcases List.mem_cons.mp hl with h | h
      · subst h; exact absurd hy (List.not_mem_nil _)
      · exact ih l h y hy
    · rw [if_neg hx] at hl
      cases hsp : xs.splitOnP p with
      | nil => exact absurd hsp (List.splitOnP_ne_nil p xs)
      | cons hd tl =>
        rw [hsp] at hl ih
        simp only [List.modifyHead_cons] at hl
        rcases List.mem_cons.mp hl with h | h
        · subst h
          rcases List.mem_cons.mp hy with h1 | h1
          · subst h1; exact hx
          · exact ih hd (List.mem_cons_self _ _) y h1
        · exact ih l (List.mem_cons_of_mem _ h) y hy

theorem splitOn_no_space (q : JStr) : ∀ l ∈ q.splitOn 32, 32 ∉ l := by
  intro l hl h32
  have := splitOnP_pieces (fun c => c == 32) q l hl 32 h32
  simp at this

theorem splitOn_ne_nil_space (q : JStr) : q.splitOn 32 ≠ [] :=
  List.splitOnP_ne_nil _ q

theorem joined_take_split (q : JStr) (k : Nat) (hk : 1 ≤ k) :
    (List.intercalate [32] ((q.splitOn 32).take k)).splitOn 32 = (q.splitOn 32).take k := by
  apply List.splitOn_intercalate
  · intro l hl
    exact splitOn_no_space q l (List.mem_of_mem_take hl)
  · intro h
    rw [List.take_eq_nil_iff] at h
    rcases h with h | h
    · omega
    · exact splitOn_ne_nil_space q h

theorem fetchText_of_quotes (q : JStr) (choices : Nat → Fin WORDS.length) (n : Int) :
    fetchText (some q) choices n
      = some (List.intercalate [32] (sliceFromStart (q.splitOn 32) n)) := rfl

theorem sliceFromStart_of_pos {α : Type} (xs : List α) (n : Int) (hn : 1 ≤ n) :
    sliceFromStart xs n = xs.take n.toNat := by
  unfold sliceFromStart
  rw [if_pos (by omega)]

/-- C21: when `fetchQuotes` succeeds with the quote text `q`, for every integer
`targetWordCount` `fetchText` returns a text that is a prefix of `q`; for
`targetWordCount ≥ 1` that text splits on single spaces into at most `targetWordCount`
pieces; when `q` itself has fewer pieces than requested the text is `q` and has fewer
pieces than requested; and it is this text that the reset installs. Example: the
quote `"a b"` with 100 words requested yields `"a b"`, two pieces. -/
theorem fetchText_quotes_cut :
    (∀ (q : JStr) (choices : Nat → Fin WORDS.length) (n : Int),
      ∃ r, fetchText (some q) choices n = some r ∧ r <+: q ∧
        (1 ≤ n → ((r.splitOn 32).length : Int) ≤ n) ∧
        (((q.splitOn 32).length : Int) < n →
          r = q ∧ ((r.splitOn 32).length : Int) < n) ∧
        (∀ (s : App) (k : Nat), s.pending[k]? = some n →
          (resolveRequest s k (some q) choices).text = r ∧
          (resolveRequest s k (some q) choices).status = .IDLE)) ∧
    (fetchText (some (jstr "a b")) firstWordChoices 100 = some (jstr "a b") ∧
      ((jstr "a b").splitOn 32).length = 2) := by
  refine ⟨?_, by decide, by decide⟩
  intro q choices n
  refine ⟨_, fetchText_of_quotes q choices n, ?_, ?_, ?_, ?_⟩
  · have hq : List.intercalate [32] (q.splitOn 32) = q := List.intercalate_splitOn q 32
    have htake : ∃ k, sliceFromStart (q.splitOn 32) n = (q.splitOn 32).take k := by
      unfold sliceFromStart
      split_ifs
      · exact ⟨_, rfl⟩
      · exact ⟨_, rfl⟩
    obtain ⟨k, hk⟩ := htake
    rw [hk]
    have h := intercalate_take_starts [32] (q.splitOn 32) k
    rw [hq] at h
    exact h
  · intro hn
    rw [sliceFromStart_of_pos _ n hn, joined_take_split q n.toNat (by omega),
      List.length_take]
    omega
  · intro hlen
    have hn : 1 ≤ n := by omega
    have hall : (q.splitOn 32).take n.toNat = q.splitOn 32 :=
      List.take_of_length_le (by omega)
    have hr : List.intercalate [32] (sliceFromStart (q.splitOn 32) n) = q := by
      rw [sliceFromStart_of_pos _ n hn, hall]
      exact List.intercalate_splitOn q 32
    rw [hr]
    exact ⟨rfl, hlen⟩
  · intro s k hk
    have hlt : k < s.pending.length := by
      by_contra hge
      rw [List.getElem?_eq_none (by omega)] at hk
      exact absurd hk (by simp)
    have hres : resolveRequest s k (some q) choices
        = textArrival s k (List.intercalate [32] (sliceFromStart (q.splitOn 32) n)) := by
      unfold resolveRequest
      rw [hk]
      simp only [fetchText_of_quotes]
    obtain ⟨h1, h2, _⟩ := textArrival_fields s k
      (List.intercalate [32] (sliceFromStart (q.splitOn 32) n)) hlt
    rw [hres]
    exact ⟨h1, h2⟩


end TypeSpeed
